import Mathlib

/-!
# Hashira: base decoding and Lagrange reconstruction of a shared secret

A shallow embedding of `src/first.cpp`.

Modelling conventions
* `std::string` is a `List Char`; a `char` is compared through its code point.
* `throw runtime_error(msg)` is `Except.error msg`.
* The arithmetic of the source is read at two levels.
  - Exact: `decode_value` and `find_secret` take `long double` as `ℚ` and the
    integer operands as unbounded `Int`. The statements that take arithmetic as
    exact, or that do not depend on it, are about these.
  - Machine: `find_secret_ll` does the `long long` operations of lines 68-69
    in 64 bits (`wrap_long_long`) and keeps `long double` exact;
    `decode_value_ld` and `find_secret_ld` also do the `long double` operations
    in the x87 extended format (`LongDouble`, `ld_round`): 64-bit significand,
    round to nearest even, infinities and NaN.
* The conversion `static_cast<long long>` is defined only inside the range of
  `long long`; outside it the model returns `none`.
* The parsed JSON object is the list of its elements in iteration order; the
  library functions `stoll` and `stoi` are parameters of `main` and return
  `none` where they throw.
* The output of `decode_value` on `cerr` is the list of lines it writes.
-/

namespace Hashira

/-! ## Data model -/

/-- A decoded point: `struct Point { long long x; long double y; }`. -/
structure Point where
  x : Int
  y : ℚ
deriving DecidableEq

/-! ## Base decoder (`decode_value`, lines 27-51) -/

/-- The digit of a character, lines 30-40 of `decode_value`: the three range
tests on the character code, `none` for the final `else { continue; }`. -/
def char_digit (c : Char) : Option Int :=
  if '0'.toNat ≤ c.toNat ∧ c.toNat ≤ '9'.toNat then
    some ((c.toNat : Int) - ('0'.toNat : Int))
  else if 'a'.toNat ≤ c.toNat ∧ c.toNat ≤ 'f'.toNat then
    some ((c.toNat : Int) - ('a'.toNat : Int) + 10)
  else if 'A'.toNat ≤ c.toNat ∧ c.toNat ≤ 'F'.toNat then
    some ((c.toNat : Int) - ('A'.toNat : Int) + 10)
  else
    none

/-- One iteration of the loop body of `decode_value` (lines 29-49): a character
outside the alphabet or a digit `>= base` leaves `result` unchanged, otherwise
`result = result * base + digit`. -/
def decode_step (base : Int) (result : ℚ) (c : Char) : ℚ :=
  match char_digit c with
  | none => result
  | some digit =>
    if digit ≥ base then result
    else result * (base : ℚ) + (digit : ℚ)

/-- The function `decode_value(value_str, base)`: `result` starts at `0.0` and
the loop body runs over the characters from left to right. -/
def decode_value (value_str : List Char) (base : Int) : ℚ :=
  value_str.foldl (decode_step base) 0

/-! ### Specification side of the decoder -/

/-- The digit alphabet as the specification words it: `'0'-'9'` are `0-9`,
`'a'-'f'` and `'A'-'F'` are `10-15`. -/
def hex_table : List (Char × Nat) :=
  [('0', 0), ('1', 1), ('2', 2), ('3', 3), ('4', 4), ('5', 5), ('6', 6), ('7', 7),
   ('8', 8), ('9', 9),
   ('a', 10), ('b', 11), ('c', 12), ('d', 13), ('e', 14), ('f', 15),
   ('A', 10), ('B', 11), ('C', 12), ('D', 13), ('E', 14), ('F', 15)]

/-- The digit value of a character by table lookup, `none` outside the
alphabet `0-9`, `a-f`, `A-F`. -/
def spec_digit (c : Char) : Option Nat := hex_table.lookup c

/-- The digit value used in the positional formula (`0` outside the alphabet). -/
def digit_value (c : Char) : Nat := (spec_digit c).getD 0

/-- The standard positional-notation value of `s` in base `b`:
the sum over positions `i` of `digit_i * b ^ (n - 1 - i)`, `n` the length. -/
def positional_value (s : List Char) (b : Int) : ℚ :=
  ∑ i in Finset.range s.length,
    (digit_value (s.getD i '0') : ℚ) * (b : ℚ) ^ (s.length - 1 - i)

/-- A character among `'0'..'9'`. -/
def is_decimal_digit (c : Char) : Prop := '0'.toNat ≤ c.toNat ∧ c.toNat ≤ '9'.toNat

instance (c : Char) : Decidable (is_decimal_digit c) := by
  unfold is_decimal_digit; infer_instance

/-- Lower-casing of the hexadecimal letters: `'A'..'F'` become `'a'..'f'`,
every other character is unchanged. -/
def lower_hex (c : Char) : Char :=
  if 'A'.toNat ≤ c.toNat ∧ c.toNat ≤ 'F'.toNat then Char.ofNat (c.toNat + 32) else c

/-! ## Secret reconstructor (`find_secret`, lines 55-81) -/

/-- The message of the `runtime_error` thrown at line 72. -/
def duplicate_x_error : String :=
  "Denominator is zero in Lagrange calculation. X values must be unique."

/-- The element `points[i]`; every index the loops use is below `points.size()`. -/
def point_at (points : List Point) (i : Nat) : Point := points.getD i ⟨0, 0⟩

/-- One iteration of the inner loop (lines 63-76) for the fixed outer index `j`:
`i == j` is skipped, a zero denominator throws, otherwise
`lagrange_basis *= numerator / denominator`. -/
def basis_step (points : List Point) (j : Nat) (lagrange_basis : ℚ) (i : Nat) :
    Except String ℚ :=
  if i = j then pure lagrange_basis
  else
    let numerator : ℚ := ((-(point_at points i).x : Int) : ℚ)
    let denominator : ℚ := (((point_at points j).x - (point_at points i).x : Int) : ℚ)
    if denominator = 0 then throw duplicate_x_error
    else pure (lagrange_basis * (numerator / denominator))

/-- One iteration of the outer loop (lines 59-79): `lagrange_basis` starts at
`1.0`, the inner loop runs over `i = 0 .. k-1`, then
`secret += y_j * lagrange_basis`. -/
def secret_step (points : List Point) (secret : ℚ) (j : Nat) : Except String ℚ := do
  let y_j := (point_at points j).y
  let lagrange_basis ← (List.range points.length).foldlM (basis_step points j) 1
  pure (secret + y_j * lagrange_basis)

/-- The function `find_secret(points)`: `secret` starts at `0.0` and the outer
loop runs over `j = 0 .. k-1` with `k = points.size()`. -/
def find_secret (points : List Point) : Except String ℚ :=
  (List.range points.length).foldlM (secret_step points) 0

/-! ### Specification side of the reconstructor -/

/-- The Lagrange value at `x = 0` as the specification writes it:
`Σ_j y_j · Π_{i ≠ j} (-x_i / (x_j - x_i))`, the indices ranging over the
positions of the list. -/
def lagrange_at_zero (points : List Point) : ℚ :=
  ∑ j : Fin points.length, (points.get j).y *
    ∏ i in Finset.univ.erase j,
      (-((points.get i).x : ℚ) / (((points.get j).x : ℚ) - ((points.get i).x : ℚ)))

/-! ### Closed forms used in the proofs -/

/-- The factor the inner loop contributes at index `i` for the outer index `j`. -/
def basis_factor (points : List Point) (j i : Nat) : ℚ :=
  if i = j then 1
  else -((point_at points i).x : ℚ) / (((point_at points j).x : ℚ) - ((point_at points i).x : ℚ))

/-- The factor of the symmetric form: `1` on a point with the abscissa of `p`,
otherwise `-x_q / (x_p - x_q)`. -/
def pair_factor (p q : Point) : ℚ :=
  if q.x = p.x then 1 else -(q.x : ℚ) / ((p.x : ℚ) - (q.x : ℚ))

/-- The Lagrange sum written over the points themselves, without positions. -/
def symmetric_sum (points : List Point) : ℚ :=
  (points.map (fun p => p.y * (points.map (pair_factor p)).prod)).sum

/-! ## Reporting the secret (`main`, lines 134-136) -/

/-- The library function `round` of `<cmath>` on an exact value: the nearest
integer, halfway cases rounded away from zero. -/
def c_round (r : ℚ) : Int :=
  if 0 ≤ r then ⌊r + 1 / 2⌋ else ⌈r - 1 / 2⌉

/-- The least value of `long long`. -/
def LLONG_MIN : Int := -2 ^ 63

/-- The greatest value of `long long`. -/
def LLONG_MAX : Int := 2 ^ 63 - 1

/-- The conversion `static_cast<long long>` of an integral floating value: the
value itself inside the range of `long long`, undefined (`none`) outside it. -/
def to_long_long (v : Int) : Option Int :=
  if LLONG_MIN ≤ v ∧ v ≤ LLONG_MAX then some v else none

/-- The reported secret, line 136:
`final_secret = static_cast<long long>(round(secret_double))`. -/
def final_secret (secret_double : ℚ) : Option Int :=
  to_long_long (c_round secret_double)

/-! ## Diagnostics of the decoder (line 44) -/

/-- The line written to `cerr` at line 44 for the character `c` and the base. -/
def warning_line (c : Char) (base : Int) : String :=
  "Warning: Invalid digit '" ++ String.singleton c ++ "' for base " ++ toString base

/-- One iteration of the loop body of `decode_value` together with its output
on `cerr`: the state is `result` and the lines written so far. -/
def decode_step_io (base : Int) (state : ℚ × List String) (c : Char) : ℚ × List String :=
  match char_digit c with
  | none => state
  | some digit =>
    if digit ≥ base then (state.1, state.2 ++ [warning_line c base])
    else (state.1 * (base : ℚ) + (digit : ℚ), state.2)

/-- The function `decode_value` with its side effect: the returned value and
the lines it writes to `cerr`, in order. -/
def decode_value_io (value_str : List Char) (base : Int) : ℚ × List String :=
  value_str.foldl (decode_step_io base) (0, [])

/-- A character of the alphabet `0-9`, `a-f`, `A-F` whose digit value is
`>= base`: an invalid digit for that base. -/
def is_invalid_digit (base : Int) (c : Char) : Bool :=
  match spec_digit c with
  | some d => decide ((d : Int) ≥ base)
  | none => false

/-- A character of the alphabet `0-9`, `a-f`, `A-F` whose digit value is
`< base`: an accepted digit. -/
def is_accepted_digit (base : Int) (c : Char) : Bool :=
  match spec_digit c with
  | some d => decide ((d : Int) < base)
  | none => false

/-- The number of accepted digits of a string. -/
def accepted_count (base : Int) (s : List Char) : Nat :=
  s.countP (is_accepted_digit base)

/-! ## Selecting the shares and running the reconstruction (`main`, lines 98-147) -/

/-- An element of `data.items()` as the loop of `main` reads it: `element.key()`,
`val["base"]` and `val["value"]`. For the metadata entry `"keys"` only the key
is read. -/
structure Entry where
  key : String
  base : String
  value : List Char
deriving DecidableEq

/-- The loop of lines 104-126 from the state `(points, points_count)`, over the
elements in iteration order. The entry `"keys"` is skipped; while
`points_count < k` a share is parsed, decoded and pushed; the first share met
with `points_count >= k` ends the loop (`break`) unparsed. The library functions
`stoll` and `stoi` are parameters; they return `none` where `std::stoll` and
`std::stoi` throw. Lines 113-115 are outside every `try`, so such an exception
leaves the loop and `main`: the result is `none`. -/
def collect_points (stoll stoi : String → Option Int) (k : Int) :
    List Entry → List Point → Int → Option (List Point)
  | [], points, _ => some points
  | element :: rest, points, points_count =>
    if element.key = "keys" then
      collect_points stoll stoi k rest points points_count
    else if points_count < k then
      match stoll element.key with
      | none => none
      | some x =>
        match stoi element.base with
        | none => none
        | some base =>
          let y := decode_value element.value base
          collect_points stoll stoi k rest (points ++ [⟨x, y⟩]) (points_count + 1)
    else
      some points

/-- How a run of `main` ends once the input is parsed. -/
inductive Outcome where
  /-- An exception of `std::stoll` or `std::stoi` (lines 113-114) that nothing
  catches ends the program; `find_secret` has not been called. -/
  | uncaught_exception
  /-- Lines 128-131: the message "Not enough points ... Found `found`, but need
  `k`" and `return 1`; `find_secret` has not been called. -/
  | not_enough_points (found : Nat) (k : Int)
  /-- Lines 142-145: `find_secret(points)` was called and threw `what`. -/
  | calculation_error (points : List Point) (what : String)
  /-- Lines 134-140: `find_secret(points)` was called and returned; the value
  of `final_secret` is printed. -/
  | secret (points : List Point) (final_secret : Option Int)

/-- The conversion of the `int` `k` to `size_t` in the comparison
`points.size() < k` of line 128. -/
def size_t_of_int (k : Int) : Int := k % 2 ^ 64

/-- The body of `main` from line 101 on, for the threshold `k` read at line 98
and the elements of `data.items()` in iteration order. -/
def main (stoll stoi : String → Option Int) (k : Int) (data : List Entry) : Outcome :=
  match collect_points stoll stoi k data [] 0 with
  | none => Outcome.uncaught_exception
  | some points =>
    if (points.length : Int) < size_t_of_int k then
      Outcome.not_enough_points points.length k
    else
      match find_secret points with
      | Except.ok secret_double => Outcome.secret points (final_secret secret_double)
      | Except.error what => Outcome.calculation_error points what

/-- The argument of the call `find_secret(points)` in a run, `none` when the
run ends before the call. -/
def find_secret_call : Outcome → Option (List Point)
  | Outcome.uncaught_exception => none
  | Outcome.not_enough_points _ _ => none
  | Outcome.calculation_error points _ => some points
  | Outcome.secret points _ => some points

/-- The share entries of the input: the elements other than `"keys"`. -/
def shares (data : List Entry) : List Entry :=
  data.filter (fun element => decide (element.key ≠ "keys"))

/-- A share entry whose key and base parse: `std::stoll` and `std::stoi` do not
throw on them. -/
def share_parses (stoll stoi : String → Option Int) (element : Entry) : Prop :=
  (stoll element.key).isSome = true ∧ (stoi element.base).isSome = true

instance (stoll stoi : String → Option Int) (element : Entry) :
    Decidable (share_parses stoll stoi element) := by
  unfold share_parses; infer_instance

/-- The point decoded from a share entry (lines 113-119), `none` when the key
or the base does not parse. -/
def share_point (stoll stoi : String → Option Int) (element : Entry) : Option Point :=
  match stoll element.key with
  | none => none
  | some x =>
    match stoi element.base with
    | none => none
    | some base => some ⟨x, decode_value element.value base⟩

/-- The points decoded from a list of share entries, in order; `none` when one
of them does not parse. -/
def share_points (stoll stoi : String → Option Int) : List Entry → Option (List Point)
  | [] => some []
  | element :: rest =>
    (share_point stoll stoi element).bind (fun p =>
      (share_points stoll stoi rest).map (fun ps => p :: ps))

/-- A sample input in iteration order: the shares "1" and "2" with decimal
values 4 and 7, and the metadata entry. -/
def sample_data : List Entry :=
  [⟨"1", "10", ['4']⟩, ⟨"2", "10", ['7']⟩, ⟨"keys", "", []⟩]

/-- A sample input whose first share has the key "abc", not a number. -/
def sample_data_bad_key : List Entry :=
  [⟨"abc", "10", ['4']⟩, ⟨"2", "10", ['7']⟩, ⟨"keys", "", []⟩]

/-- The behaviour of `std::stoll` on the keys of the sample inputs: the numbers
"1", "2", "3" are converted, "abc" throws. Other strings are not used. -/
def sample_stoll (s : String) : Option Int :=
  if s = "1" then some 1 else if s = "2" then some 2 else if s = "3" then some 3 else none

/-- The behaviour of `std::stoi` on the bases of the sample inputs. Other
strings are not used. -/
def sample_stoi (s : String) : Option Int :=
  if s = "10" then some 10 else if s = "16" then some 16 else none

/-! ## The reconstructor with 64-bit integer operations -/

/-- The result of a `long long` operation whose exact result is `v`: the value
itself inside the range, and the two's-complement wrap-around outside it (the
overflow is undefined in C++; the usual targets wrap). -/
def wrap_long_long (v : Int) : Int := (v + 2 ^ 63) % 2 ^ 64 - 2 ^ 63

/-- A value of the type `long long`. -/
def is_long_long (v : Int) : Prop := LLONG_MIN ≤ v ∧ v ≤ LLONG_MAX

instance (v : Int) : Decidable (is_long_long v) := by
  unfold is_long_long; infer_instance

/-- One iteration of the inner loop (lines 63-76) with the operations of lines
68-69 done in `long long` before the conversion to `long double`:
`numerator = -points[i].x` and `denominator = points[j].x - points[i].x`. The
`long double` arithmetic is exact. -/
def basis_step_ll (points : List Point) (j : Nat) (lagrange_basis : ℚ) (i : Nat) :
    Except String ℚ :=
  if i = j then pure lagrange_basis
  else
    let numerator : ℚ := ((wrap_long_long (-(point_at points i).x) : Int) : ℚ)
    let denominator : ℚ :=
      ((wrap_long_long ((point_at points j).x - (point_at points i).x) : Int) : ℚ)
    if denominator = 0 then throw duplicate_x_error
    else pure (lagrange_basis * (numerator / denominator))

/-- One iteration of the outer loop (lines 59-79) over `basis_step_ll`. -/
def secret_step_ll (points : List Point) (secret : ℚ) (j : Nat) : Except String ℚ := do
  let y_j := (point_at points j).y
  let lagrange_basis ← (List.range points.length).foldlM (basis_step_ll points j) 1
  pure (secret + y_j * lagrange_basis)

/-- The function `find_secret(points)` with 64-bit integer operations and exact
`long double` arithmetic. -/
def find_secret_ll (points : List Point) : Except String ℚ :=
  (List.range points.length).foldlM (secret_step_ll points) 0

/-- No `long long` operation of `find_secret` overflows on the abscissas `xs`:
for different abscissas `a`, `b` both `-a` and `b - a` are `long long` values. -/
def no_overflow (xs : List Int) : Prop :=
  ∀ a ∈ xs, ∀ b ∈ xs, a ≠ b → is_long_long (-a) ∧ is_long_long (b - a)

instance (xs : List Int) : Decidable (no_overflow xs) := by
  unfold no_overflow; infer_instance

/-- The factor the inner loop of `find_secret_ll` contributes at index `i` for
the outer index `j`. -/
def basis_factor_ll (points : List Point) (j i : Nat) : ℚ :=
  if i = j then 1
  else ((wrap_long_long (-(point_at points i).x) : Int) : ℚ) /
    ((wrap_long_long ((point_at points j).x - (point_at points i).x) : Int) : ℚ)

/-! ## The type `long double`

The x87 extended format of the x86-64 ABI: a significand of 64 bits, results
rounded to nearest with ties to even, overflow to an infinity. The sign of
zero is not represented; no modelled result depends on it. -/

/-- A value of the type `long double`: a finite number, an infinity or a NaN. -/
inductive LongDouble where
  | finite (v : ℚ)
  | pos_inf
  | neg_inf
  | nan
deriving DecidableEq

/-- The number of bits of the significand (`<cfloat>`). -/
def LDBL_MANT_DIG : Int := 64

/-- The least exponent of a normal number (`<cfloat>`): the least normal number
is `2 ^ (LDBL_MIN_EXP - 1)`. -/
def LDBL_MIN_EXP : Int := -16381

/-- The greatest finite value (`<cfloat>`): `(2^64 - 1) * 2^16320`. -/
def LDBL_MAX : ℚ := (2 ^ 64 - 1) * 2 ^ 16320

/-- The nearest integer, ties to the even one. -/
def round_half_even (q : ℚ) : Int :=
  if q - (⌊q⌋ : ℚ) < 1 / 2 then ⌊q⌋
  else if 1 / 2 < q - (⌊q⌋ : ℚ) then ⌊q⌋ + 1
  else if ⌊q⌋ % 2 = 0 then ⌊q⌋ else ⌊q⌋ + 1

/-- The `long double` nearest to the exact result `q` of an operation: with
`2^e ≤ |q| < 2^(e+1)` the spacing of the format is `2^(e - 63)` (the spacing of
the subnormal numbers below the least normal one), `q` is rounded to a multiple
of it, and a result beyond `LDBL_MAX` is an infinity. -/
def ld_round (q : ℚ) : LongDouble :=
  if q = 0 then LongDouble.finite 0
  else
    let e : Int := max (Int.log 2 |q|) (LDBL_MIN_EXP - 1)
    let ulp : ℚ := 2 ^ (e - (LDBL_MANT_DIG - 1))
    let v : ℚ := (round_half_even (q / ulp) : ℚ) * ulp
    if LDBL_MAX < |v| then
      if 0 < q then LongDouble.pos_inf else LongDouble.neg_inf
    else LongDouble.finite v

/-- The conversion of an integer (`int`, `long long`) to `long double`. -/
def ld_of_int (n : Int) : LongDouble := ld_round (n : ℚ)

/-- The infinity with the sign of `q`, for `q ≠ 0`. -/
def ld_inf (q : ℚ) : LongDouble :=
  if 0 < q then LongDouble.pos_inf else LongDouble.neg_inf

/-- The product `a * b` of two `long double` values (IEEE 754). -/
def ld_mul : LongDouble → LongDouble → LongDouble
  | LongDouble.nan, _ => LongDouble.nan
  | _, LongDouble.nan => LongDouble.nan
  | LongDouble.finite a, LongDouble.finite b => ld_round (a * b)
  | LongDouble.finite a, LongDouble.pos_inf => if a = 0 then LongDouble.nan else ld_inf a
  | LongDouble.finite a, LongDouble.neg_inf => if a = 0 then LongDouble.nan else ld_inf (-a)
  | LongDouble.pos_inf, LongDouble.finite b => if b = 0 then LongDouble.nan else ld_inf b
  | LongDouble.neg_inf, LongDouble.finite b => if b = 0 then LongDouble.nan else ld_inf (-b)
  | LongDouble.pos_inf, LongDouble.pos_inf => LongDouble.pos_inf
  | LongDouble.pos_inf, LongDouble.neg_inf => LongDouble.neg_inf
  | LongDouble.neg_inf, LongDouble.pos_inf => LongDouble.neg_inf
  | LongDouble.neg_inf, LongDouble.neg_inf => LongDouble.pos_inf

/-- The sum `a + b` of two `long double` values (IEEE 754). -/
def ld_add : LongDouble → LongDouble → LongDouble
  | LongDouble.nan, _ => LongDouble.nan
  | _, LongDouble.nan => LongDouble.nan
  | LongDouble.finite a, LongDouble.finite b => ld_round (a + b)
  | LongDouble.finite _, LongDouble.pos_inf => LongDouble.pos_inf
  | LongDouble.finite _, LongDouble.neg_inf => LongDouble.neg_inf
  | LongDouble.pos_inf, LongDouble.finite _ => LongDouble.pos_inf
  | LongDouble.neg_inf, LongDouble.finite _ => LongDouble.neg_inf
  | LongDouble.pos_inf, LongDouble.pos_inf => LongDouble.pos_inf
  | LongDouble.pos_inf, LongDouble.neg_inf => LongDouble.nan
  | LongDouble.neg_inf, LongDouble.pos_inf => LongDouble.nan
  | LongDouble.neg_inf, LongDouble.neg_inf => LongDouble.neg_inf

/-- The quotient `a / b` of two `long double` values (IEEE 754). A finite
nonzero number over zero is an infinity; its sign would be that of the zero and
is taken here as the sign of `a`, the program never divides by zero. -/
def ld_div : LongDouble → LongDouble → LongDouble
  | LongDouble.nan, _ => LongDouble.nan
  | _, LongDouble.nan => LongDouble.nan
  | LongDouble.finite a, LongDouble.finite b =>
    if b = 0 then (if a = 0 then LongDouble.nan else ld_inf a) else ld_round (a / b)
  | LongDouble.finite _, LongDouble.pos_inf => LongDouble.finite 0
  | LongDouble.finite _, LongDouble.neg_inf => LongDouble.finite 0
  | LongDouble.pos_inf, LongDouble.finite b => if 0 ≤ b then LongDouble.pos_inf else LongDouble.neg_inf
  | LongDouble.neg_inf, LongDouble.finite b => if 0 ≤ b then LongDouble.neg_inf else LongDouble.pos_inf
  | LongDouble.pos_inf, LongDouble.pos_inf => LongDouble.nan
  | LongDouble.pos_inf, LongDouble.neg_inf => LongDouble.nan
  | LongDouble.neg_inf, LongDouble.pos_inf => LongDouble.nan
  | LongDouble.neg_inf, LongDouble.neg_inf => LongDouble.nan

/-! ## The decoder and the reconstructor in `long double` arithmetic -/

/-- One iteration of the loop body of `decode_value` (lines 29-49) with line 48,
`result = result * base + digit`, in `long double` arithmetic: the product is
rounded, then the sum. -/
def decode_step_ld (base : Int) (result : LongDouble) (c : Char) : LongDouble :=
  match char_digit c with
  | none => result
  | some digit =>
    if digit ≥ base then result
    else ld_add (ld_mul result (ld_of_int base)) (ld_of_int digit)

/-- The function `decode_value(value_str, base)` in `long double` arithmetic. -/
def decode_value_ld (value_str : List Char) (base : Int) : LongDouble :=
  value_str.foldl (decode_step_ld base) (LongDouble.finite 0)

/-- A decoded point with its `long double` ordinate:
`struct Point { long long x; long double y; }`. -/
structure PointLD where
  x : Int
  y : LongDouble
deriving DecidableEq

/-- The element `points[i]` of a list of `PointLD`. -/
def point_ld_at (points : List PointLD) (i : Nat) : PointLD :=
  points.getD i ⟨0, LongDouble.finite 0⟩

/-- One iteration of the inner loop (lines 63-76) in `long long` and
`long double` arithmetic. -/
def basis_step_ld (points : List PointLD) (j : Nat) (lagrange_basis : LongDouble) (i : Nat) :
    Except String LongDouble :=
  if i = j then pure lagrange_basis
  else
    let numerator : LongDouble := ld_of_int (wrap_long_long (-(point_ld_at points i).x))
    let denominator : LongDouble :=
      ld_of_int (wrap_long_long ((point_ld_at points j).x - (point_ld_at points i).x))
    if denominator = LongDouble.finite 0 then throw duplicate_x_error
    else pure (ld_mul lagrange_basis (ld_div numerator denominator))

/-- One iteration of the outer loop (lines 59-79) in `long double` arithmetic. -/
def secret_step_ld (points : List PointLD) (secret : LongDouble) (j : Nat) :
    Except String LongDouble := do
  let y_j := (point_ld_at points j).y
  let lagrange_basis ←
    (List.range points.length).foldlM (basis_step_ld points j) (LongDouble.finite 1)
  pure (ld_add secret (ld_mul y_j lagrange_basis))

/-- The function `find_secret(points)` in `long long` and `long double`
arithmetic. -/
def find_secret_ld (points : List PointLD) : Except String LongDouble :=
  (List.range points.length).foldlM (secret_step_ld points) (LongDouble.finite 0)

/-! ## Lemmas on the decoder -/

theorem char_eq_ofNat_of_toNat (c : Char) (n : Nat) (h : c.toNat = n) : c = Char.ofNat n := by
  rw [← h, Char.ofNat_toNat]

theorem hex_table_keys (p : Char × Nat) (hp : p ∈ hex_table) :
    (48 ≤ p.1.toNat ∧ p.1.toNat ≤ 57) ∨ (97 ≤ p.1.toNat ∧ p.1.toNat ≤ 102) ∨
      (65 ≤ p.1.toNat ∧ p.1.toNat ≤ 70) := by
  revert p
  decide

/-- The digit computed by the code agrees with the table of the specification. -/
theorem char_digit_eq_spec (c : Char) :
    char_digit c = (spec_digit c).map (fun d => (d : Int)) := by
  obtain ⟨n, hn⟩ : ∃ n, c.toNat = n := ⟨_, rfl⟩
  have hc := char_eq_ofNat_of_toNat c n hn
  by_cases h1 : 48 ≤ n ∧ n ≤ 57
  · obtain ⟨h1, h2⟩ := h1
    subst hc
    interval_cases n <;> rfl
  · by_cases h2 : 97 ≤ n ∧ n ≤ 102
    · obtain ⟨h1, h2⟩ := h2
      subst hc
      interval_cases n <;> rfl
    · by_cases h3 : 65 ≤ n ∧ n ≤ 70
      · obtain ⟨h1, h2⟩ := h3
        subst hc
        interval_cases n <;> rfl
      · have hs : spec_digit c = none := by
          unfold spec_digit
          rw [List.lookup_eq_none_iff]
          intro p hp
          have hk := hex_table_keys p hp
          simp only [bne_iff_ne, ne_eq]
          intro hcp
          rw [← hcp, hn] at hk
          tauto
        have hd : char_digit c = none := by
          unfold char_digit
          have e0 : '0'.toNat = 48 := rfl
          have e9 : '9'.toNat = 57 := rfl
          have ea : 'a'.toNat = 97 := rfl
          have ef : 'f'.toNat = 102 := rfl
          have eA : 'A'.toNat = 65 := rfl
          have eF : 'F'.toNat = 70 := rfl
          rw [e0, e9, ea, ef, eA, eF, hn, if_neg h1, if_neg h2, if_neg h3]
        rw [hs, hd]; rfl

theorem decode_value_nil (b : Int) : decode_value [] b = 0 := rfl

theorem decode_value_snoc (s : List Char) (c : Char) (b : Int) :
    decode_value (s ++ [c]) b = decode_step b (decode_value s b) c := by
  simp [decode_value, List.foldl_append]

theorem decode_step_of_some (b : Int) (r : ℚ) (c : Char) (d : Nat)
    (h : spec_digit c = some d) :
    decode_step b r c = if (d : Int) ≥ b then r else r * (b : ℚ) + (d : ℚ) := by
  simp [decode_step, char_digit_eq_spec, h]

theorem decode_step_of_none (b : Int) (r : ℚ) (c : Char) (h : spec_digit c = none) :
    decode_step b r c = r := by
  simp [decode_step, char_digit_eq_spec, h]

/-- A character on which the loop body does nothing can be removed. -/
theorem decode_value_skip (b : Int) (s t : List Char) (c : Char)
    (h : ∀ r, decode_step b r c = r) :
    decode_value (s ++ [c] ++ t) b = decode_value (s ++ t) b := by
  simp [decode_value, List.foldl_append, h]

theorem positional_value_snoc (s : List Char) (c : Char) (b : Int) :
    positional_value (s ++ [c]) b
      = positional_value s b * (b : ℚ) + (digit_value c : ℚ) := by
  unfold positional_value
  simp only [List.length_append, List.length_singleton]
  rw [Finset.sum_range_succ, Finset.sum_mul]
  congr 1
  · apply Finset.sum_congr rfl
    intro i hi
    have hi : i < s.length := Finset.mem_range.mp hi
    rw [List.getD_append _ _ _ _ hi, mul_assoc, ← pow_succ]
    congr 2
    omega
  · rw [List.getD_append_right _ _ _ _ (le_refl _)]
    simp

theorem char_digit_lower_hex (c : Char) : char_digit (lower_hex c) = char_digit c := by
  obtain ⟨n, hn⟩ : ∃ n, c.toNat = n := ⟨_, rfl⟩
  have hc := char_eq_ofNat_of_toNat c n hn
  by_cases h : 65 ≤ n ∧ n ≤ 70
  · obtain ⟨h1, h2⟩ := h
    subst hc
    interval_cases n <;> rfl
  · have e : lower_hex c = c := by
      unfold lower_hex
      have eA : 'A'.toNat = 65 := rfl
      have eF : 'F'.toNat = 70 := rfl
      rw [eA, eF, hn, if_neg h]
    rw [e]

theorem decode_step_lower_hex (b : Int) (r : ℚ) (c : Char) :
    decode_step b r (lower_hex c) = decode_step b r c := by
  unfold decode_step
  rw [char_digit_lower_hex]

theorem decimal_spec_digit (c : Char) (h : is_decimal_digit c) :
    ∃ d : Nat, spec_digit c = some d ∧ d ≤ 9 ∧ (d = 0 ↔ c = '0') := by
  obtain ⟨n, hn⟩ : ∃ n, c.toNat = n := ⟨_, rfl⟩
  have hc := char_eq_ofNat_of_toNat c n hn
  unfold is_decimal_digit at h
  have e0 : '0'.toNat = 48 := rfl
  have e9 : '9'.toNat = 57 := rfl
  rw [e0, e9, hn] at h
  obtain ⟨h1, h2⟩ := h
  subst hc
  interval_cases n
  · exact ⟨0, rfl, by decide, by decide⟩
  · exact ⟨1, rfl, by decide, by decide⟩
  · exact ⟨2, rfl, by decide, by decide⟩
  · exact ⟨3, rfl, by decide, by decide⟩
  · exact ⟨4, rfl, by decide, by decide⟩
  · exact ⟨5, rfl, by decide, by decide⟩
  · exact ⟨6, rfl, by decide, by decide⟩
  · exact ⟨7, rfl, by decide, by decide⟩
  · exact ⟨8, rfl, by decide, by decide⟩
  · exact ⟨9, rfl, by decide, by decide⟩

/-- On a decimal digit both the base-10 and the base-16 loop body accumulate. -/
theorem decode_step_decimal (b : Int) (hb : 10 ≤ b) (r : ℚ) (c : Char) (d : Nat)
    (hd : spec_digit c = some d) (h9 : d ≤ 9) :
    decode_step b r c = r * (b : ℚ) + (d : ℚ) := by
  rw [decode_step_of_some b r c d hd, if_neg]
  omega

theorem decode_decimal_bounds (s : List Char) (h : ∀ c ∈ s, is_decimal_digit c) :
    0 ≤ decode_value s 10 ∧ decode_value s 10 ≤ decode_value s 16 ∧
      (decode_value s 16 = 0 ↔ ∀ c ∈ s, c = '0') := by
  induction s using List.reverseRecOn with
  | nil => simp [decode_value]
  | append_singleton s c ih =>
    have hs : ∀ c ∈ s, is_decimal_digit c := fun x hx => h x (by simp [hx])
    obtain ⟨ih0, ih1, ih2⟩ := ih hs
    obtain ⟨d, hd, h9, hz⟩ := decimal_spec_digit c (h c (by simp))
    rw [decode_value_snoc, decode_value_snoc,
      decode_step_decimal 10 (by norm_num) _ c d hd h9,
      decode_step_decimal 16 (by norm_num) _ c d hd h9]
    have hd0 : (0 : ℚ) ≤ (d : ℚ) := Nat.cast_nonneg d
    have h16 : 0 ≤ decode_value s 16 := le_trans ih0 ih1
    push_cast
    refine ⟨by positivity, by linarith, ?_⟩
    constructor
    · intro he
      have e1 : decode_value s 16 = 0 := by linarith
      have e2 : (d : ℚ) = 0 := by linarith
      have e3 : d = 0 := by exact_mod_cast e2
      intro x hx
      rcases List.mem_append.mp hx with hx | hx
      · exact ih2.mp e1 x hx
      · rw [List.mem_singleton.mp hx]; exact hz.mp e3
    · intro hall
      have e1 : decode_value s 16 = 0 := ih2.mpr (fun x hx => hall x (by simp [hx]))
      have e3 : d = 0 := hz.mpr (hall c (by simp))
      rw [e1, e3]; simp

/-! ## Lemmas on the reconstructor -/

theorem basis_loop_ok (points : List Point) (j : Nat) (l : List Nat)
    (h : ∀ i ∈ l, i ≠ j → (point_at points i).x ≠ (point_at points j).x) (acc : ℚ) :
    l.foldlM (basis_step points j) acc
      = Except.ok (acc * (l.map (basis_factor points j)).prod) := by
  induction l generalizing acc with
  | nil => simp [pure, Except.pure]
  | cons i l ih =>
    have hl : ∀ i ∈ l, i ≠ j → (point_at points i).x ≠ (point_at points j).x :=
      fun a ha => h a (List.mem_cons_of_mem _ ha)
    rw [List.foldlM_cons]
    by_cases hij : i = j
    · subst hij
      simp only [basis_step, if_true, pure_bind]
      rw [ih hl, List.map_cons, List.prod_cons]
      simp [basis_factor]
    · have hx := h i (List.mem_cons_self _ _) hij
      have hden : ((((point_at points j).x - (point_at points i).x : Int)) : ℚ) ≠ 0 := by
        intro h0
        have : (point_at points j).x - (point_at points i).x = 0 := by exact_mod_cast h0
        exact hx (by omega)
      simp only [basis_step, hij, if_false, hden, pure_bind]
      rw [ih hl, List.map_cons, List.prod_cons]
      simp only [basis_factor, hij, if_false]
      push_cast
      rw [mul_assoc]

theorem basis_loop_error (points : List Point) (j : Nat) (l : List Nat)
    (h : ∃ i ∈ l, i ≠ j ∧ (point_at points i).x = (point_at points j).x) (acc : ℚ) :
    l.foldlM (basis_step points j) acc = Except.error duplicate_x_error := by
  induction l generalizing acc with
  | nil => obtain ⟨i, hi, _⟩ := h; simp at hi
  | cons a l ih =>
    rw [List.foldlM_cons]
    by_cases haj : a = j
    · simp only [basis_step, haj, if_true, pure_bind]
      obtain ⟨i, hi, hij, hx⟩ := h
      rcases List.mem_cons.mp hi with hia | hil
      · exact absurd (hia.trans haj) hij
      · exact ih ⟨i, hil, hij, hx⟩ acc
    · by_cases hx : (point_at points a).x = (point_at points j).x
      · simp [basis_step, haj, hx, throw, throwThe, MonadExceptOf.throw, bind, Except.bind]
      · have hden : ((((point_at points j).x - (point_at points a).x : Int)) : ℚ) ≠ 0 := by
          intro h0
          have : (point_at points j).x - (point_at points a).x = 0 := by exact_mod_cast h0
          exact hx (by omega)
        simp only [basis_step, haj, if_false, hden, pure_bind]
        obtain ⟨i, hi, hij, hxi⟩ := h
        rcases List.mem_cons.mp hi with hia | hil
        · exact absurd (hia ▸ hxi) hx
        · exact ih ⟨i, hil, hij, hxi⟩ _

/-- The inner loop either completes or throws the duplicate-x error. -/
theorem basis_loop_cases (points : List Point) (j : Nat) (l : List Nat) (acc : ℚ) :
    l.foldlM (basis_step points j) acc
        = Except.ok (acc * (l.map (basis_factor points j)).prod) ∨
      l.foldlM (basis_step points j) acc = Except.error duplicate_x_error := by
  by_cases h : ∃ i ∈ l, i ≠ j ∧ (point_at points i).x = (point_at points j).x
  · exact Or.inr (basis_loop_error points j l h acc)
  · left
    apply basis_loop_ok
    intro i hi hij hx
    exact h ⟨i, hi, hij, hx⟩

theorem secret_loop_ok (points : List Point) (l : List Nat)
    (h : ∀ j ∈ l, ∀ i ∈ List.range points.length, i ≠ j →
      (point_at points i).x ≠ (point_at points j).x) (acc : ℚ) :
    l.foldlM (secret_step points) acc
      = Except.ok (acc + (l.map (fun j => (point_at points j).y *
          ((List.range points.length).map (basis_factor points j)).prod)).sum) := by
  induction l generalizing acc with
  | nil => simp [pure, Except.pure]
  | cons j l ih =>
    rw [List.foldlM_cons]
    have hj := basis_loop_ok points j (List.range points.length)
      (h j (List.mem_cons_self _ _)) 1
    simp only [secret_step, hj, bind, Except.bind, pure, Except.pure]
    have := ih (fun a ha => h a (List.mem_cons_of_mem _ ha))
      (acc + (point_at points j).y *
        (1 * ((List.range points.length).map (basis_factor points j)).prod))
    simp only [secret_step, bind, Except.bind, pure, Except.pure] at this
    rw [this, List.map_cons, List.sum_cons]
    congr 1
    ring

theorem secret_loop_error (points : List Point) (l : List Nat)
    (h : ∃ j ∈ l, ∃ i ∈ List.range points.length, i ≠ j ∧
      (point_at points i).x = (point_at points j).x) (acc : ℚ) :
    l.foldlM (secret_step points) acc = Except.error duplicate_x_error := by
  induction l generalizing acc with
  | nil => obtain ⟨j, hj, _⟩ := h; simp at hj
  | cons a l ih =>
    rw [List.foldlM_cons]
    rcases basis_loop_cases points a (List.range points.length) 1 with hok | herr
    · obtain ⟨j, hj, i, hi, hij, hx⟩ := h
      rcases List.mem_cons.mp hj with hja | hjl
      · subst hja
        have := basis_loop_error points j (List.range points.length) ⟨i, hi, hij, hx⟩ 1
        rw [this] at hok
        cases hok
      · have := ih ⟨j, hjl, i, hi, hij, hx⟩
        simp only [secret_step, hok, bind, Except.bind, pure, Except.pure] at this ⊢
        exact this _
    · simp only [secret_step, herr, bind, Except.bind]

theorem point_at_eq_get (points : List Point) (i : Fin points.length) :
    point_at points i = points.get i := by
  simp [point_at, List.getD_eq_getElem, i.2]

theorem range_map_point_at (points : List Point) :
    (List.range points.length).map (point_at points) = points := by
  apply List.ext_getElem
  · simp
  · intro n h1 h2
    simp [point_at, List.getD_eq_getElem, h2]

theorem map_range_point_at {β : Type} (points : List Point) (f : Point → β) :
    (List.range points.length).map (fun i => f (point_at points i)) = points.map f := by
  have h := congrArg (List.map f) (range_map_point_at points)
  rw [List.map_map] at h
  exact h

theorem x_index_inj (points : List Point) (hn : (points.map Point.x).Nodup) (i j : Nat)
    (hi : i < points.length) (hj : j < points.length)
    (h : (point_at points i).x = (point_at points j).x) : i = j := by
  have hi' : i < (points.map Point.x).length := by simpa using hi
  have hj' : j < (points.map Point.x).length := by simpa using hj
  have key := (@List.Nodup.getElem_inj_iff _ _ hn i hi' j hj').mp
  apply key
  simp only [point_at, List.getD_eq_getElem _ _ hi, List.getD_eq_getElem _ _ hj] at h
  simpa using h

theorem exists_duplicate_x (points : List Point) (hn : ¬ (points.map Point.x).Nodup) :
    ∃ i j : Fin points.length, i ≠ j ∧ (points.get i).x = (points.get j).x := by
  by_contra hc
  apply hn
  rw [List.nodup_iff_injective_getElem]
  rintro ⟨i, hi⟩ ⟨j, hj⟩ heq
  have hi' : i < points.length := by simpa using hi
  have hj' : j < points.length := by simpa using hj
  by_contra hne
  apply hc
  refine ⟨⟨i, hi'⟩, ⟨j, hj'⟩, ?_, ?_⟩
  · intro h
    apply hne
    have : i = j := by simpa using congrArg Fin.val h
    subst this
    rfl
  · simpa using heq

theorem nodup_of_no_duplicate_x (points : List Point)
    (h : ∀ i j : Fin points.length, i ≠ j → (points.get i).x ≠ (points.get j).x) :
    (points.map Point.x).Nodup := by
  by_contra hn
  obtain ⟨i, j, hij, hx⟩ := exists_duplicate_x points hn
  exact h i j hij hx

theorem list_sum_range (f : Nat → ℚ) (n : Nat) :
    ((List.range n).map f).sum = ∑ i in Finset.range n, f i := by
  rw [← List.sum_toFinset f (List.nodup_range n)]
  congr 1
  ext i
  simp

theorem list_prod_range (f : Nat → ℚ) (n : Nat) :
    ((List.range n).map f).prod = ∏ i in Finset.range n, f i := by
  rw [← List.prod_toFinset f (List.nodup_range n)]
  congr 1
  ext i
  simp

/-- With pairwise distinct abscissas both loops complete; the result in the
form the loops produce it. -/
theorem find_secret_index_form (points : List Point) (hn : (points.map Point.x).Nodup) :
    find_secret points
      = Except.ok ((List.range points.length).map (fun j => (point_at points j).y *
          ((List.range points.length).map (basis_factor points j)).prod)).sum := by
  unfold find_secret
  rw [secret_loop_ok points (List.range points.length) _ 0, zero_add]
  intro j hj i hi hij hx
  exact hij (x_index_inj points hn i j (List.mem_range.mp hi) (List.mem_range.mp hj) hx)

theorem find_secret_eq_lagrange (points : List Point) (hn : (points.map Point.x).Nodup) :
    find_secret points = Except.ok (lagrange_at_zero points) := by
  rw [find_secret_index_form points hn, list_sum_range, Finset.sum_range]
  congr 1
  unfold lagrange_at_zero
  apply Finset.sum_congr rfl
  intro j _
  rw [list_prod_range, Finset.prod_range, point_at_eq_get]
  congr 1
  have h1 : basis_factor points j j = 1 := by simp [basis_factor]
  have he : ∏ i in Finset.univ.erase j, basis_factor points j i
      = ∏ i : Fin points.length, basis_factor points j i := Finset.prod_erase _ h1
  rw [← he]
  apply Finset.prod_congr rfl
  intro i hi
  have hij : (i : Nat) ≠ (j : Nat) := fun h => (Finset.ne_of_mem_erase hi) (Fin.ext h)
  simp only [basis_factor, hij, if_false, point_at_eq_get]

theorem find_secret_eq_symmetric (points : List Point) (hn : (points.map Point.x).Nodup) :
    find_secret points = Except.ok (symmetric_sum points) := by
  rw [find_secret_index_form points hn]
  congr 1
  unfold symmetric_sum
  have inner : ∀ j ∈ List.range points.length,
      (point_at points j).y * ((List.range points.length).map (basis_factor points j)).prod
        = (fun p : Point => p.y * (points.map (pair_factor p)).prod) (point_at points j) := by
    intro j hj
    have e : (List.range points.length).map (basis_factor points j)
        = (List.range points.length).map (fun i => pair_factor (point_at points j) (point_at points i)) := by
      apply List.map_congr_left
      intro i hi
      unfold basis_factor pair_factor
      by_cases hij : i = j
      · subst hij; simp
      · have hx : (point_at points i).x ≠ (point_at points j).x := fun hx =>
          hij (x_index_inj points hn i j (List.mem_range.mp hi) (List.mem_range.mp hj) hx)
        rw [if_neg hij, if_neg hx]
    have e2 : (List.range points.length).map
          (fun i => pair_factor (point_at points j) (point_at points i))
        = points.map (pair_factor (point_at points j)) := by
      exact map_range_point_at points _
    simp only [e, e2]
  rw [List.map_congr_left inner]
  exact congrArg List.sum
    (map_range_point_at points (fun p : Point => p.y * (points.map (pair_factor p)).prod))

theorem find_secret_error_of_duplicate (points : List Point)
    (h : ∃ i j : Fin points.length, i ≠ j ∧ (points.get i).x = (points.get j).x) :
    find_secret points = Except.error duplicate_x_error := by
  obtain ⟨i, j, hij, hx⟩ := h
  unfold find_secret
  apply secret_loop_error
  refine ⟨j, List.mem_range.mpr j.2, i, List.mem_range.mpr i.2, ?_, ?_⟩
  · exact fun h => hij (Fin.ext h)
  · rw [point_at_eq_get, point_at_eq_get]; exact hx

theorem symmetric_sum_perm (l l' : List Point) (h : l.Perm l') :
    symmetric_sum l = symmetric_sum l' := by
  unfold symmetric_sum
  have e : (fun p : Point => p.y * (l.map (pair_factor p)).prod)
      = (fun p : Point => p.y * (l'.map (pair_factor p)).prod) := by
    funext p
    rw [(h.map (pair_factor p)).prod_eq]
  rw [e]
  exact (h.map _).sum_eq

theorem x_cast_injOn (points : List Point) (hn : (points.map Point.x).Nodup) :
    Set.InjOn (fun i : Fin points.length => ((points.get i).x : ℚ))
      (Finset.univ : Finset (Fin points.length)) := by
  intro i _ j _ h
  have h2 : ((points.get i).x : ℚ) = ((points.get j).x : ℚ) := h
  have h' : (points.get i).x = (points.get j).x := Int.cast_injective h2
  rw [← point_at_eq_get, ← point_at_eq_get] at h'
  exact Fin.ext (x_index_inj points hn i j i.2 j.2 h')

/-- The specification formula evaluated on samples of a polynomial of degree
below the number of points is the value of the polynomial at `0`. -/
theorem lagrange_at_zero_of_polynomial (points : List Point) (p : Polynomial ℚ)
    (hn : (points.map Point.x).Nodup) (hdeg : p.degree < points.length)
    (hy : ∀ q ∈ points, q.y = p.eval (q.x : ℚ)) :
    lagrange_at_zero points = p.eval 0 := by
  have hcard : p.degree < (Finset.univ : Finset (Fin points.length)).card := by
    simpa using hdeg
  have hval : ∀ i ∈ (Finset.univ : Finset (Fin points.length)),
      p.eval ((fun i : Fin points.length => ((points.get i).x : ℚ)) i)
        = (fun i : Fin points.length => (points.get i).y) i := by
    intro i _
    exact (hy _ (List.get_mem points i.1 i.2)).symm
  have hp := Lagrange.eq_interpolate_of_eval_eq _ (x_cast_injOn points hn) hcard hval
  conv_rhs => rw [hp]
  rw [Lagrange.interpolate_apply, Polynomial.eval_finset_sum]
  unfold lagrange_at_zero
  apply Finset.sum_congr rfl
  intro j _
  rw [Polynomial.eval_mul, Polynomial.eval_C, Lagrange.basis, Polynomial.eval_prod]
  congr 1
  apply Finset.prod_congr rfl
  intro i _
  simp only [Lagrange.basisDivisor, Polynomial.eval_mul, Polynomial.eval_C,
    Polynomial.eval_sub, Polynomial.eval_X]
  rw [div_eq_mul_inv]
  ring

theorem find_secret_of_polynomial (p : Polynomial ℚ) (xs : List Int)
    (hk : 1 ≤ xs.length) (hdeg : p.natDegree ≤ xs.length - 1) (hn : xs.Nodup) :
    find_secret (xs.map (fun x => (⟨x, p.eval (x : ℚ)⟩ : Point))) = Except.ok (p.eval 0) := by
  have hx : (xs.map (fun x => (⟨x, p.eval (x : ℚ)⟩ : Point))).map Point.x = xs := by
    rw [List.map_map]
    exact List.map_id xs
  have hn' : ((xs.map (fun x => (⟨x, p.eval (x : ℚ)⟩ : Point))).map Point.x).Nodup := by
    rw [hx]; exact hn
  rw [find_secret_eq_lagrange _ hn']
  congr 1
  apply lagrange_at_zero_of_polynomial _ p hn'
  · rw [List.length_map]
    apply lt_of_le_of_lt Polynomial.degree_le_natDegree
    have : p.natDegree < xs.length := by omega
    exact_mod_cast this
  · intro q hq
    obtain ⟨x, _, rfl⟩ := List.mem_map.mp hq
    rfl

theorem find_secret_scenario : find_secret [⟨1, 4⟩, ⟨2, 7⟩, ⟨3, 12⟩] = Except.ok 3 := by
  simp [find_secret, secret_step, basis_step, point_at, List.range, List.range.loop]
  norm_num
  rfl

/-! ## Lemmas on rounding -/

theorem c_round_nonneg_bounds (r : ℚ) (h : 0 ≤ r) :
    0 ≤ c_round r ∧ (c_round r : ℚ) ≤ r + 1 / 2 ∧ r - 1 / 2 < (c_round r : ℚ) := by
  unfold c_round
  rw [if_pos h]
  refine ⟨Int.floor_nonneg.mpr (by linarith), Int.floor_le _, ?_⟩
  have := Int.lt_floor_add_one (r + 1 / 2)
  linarith

theorem c_round_neg_bounds (r : ℚ) (h : r < 0) :
    c_round r ≤ 0 ∧ r - 1 / 2 ≤ (c_round r : ℚ) ∧ (c_round r : ℚ) < r + 1 / 2 := by
  unfold c_round
  rw [if_neg (not_le.mpr h)]
  refine ⟨Int.ceil_le.mpr (by push_cast; linarith), Int.le_ceil _, ?_⟩
  have := Int.ceil_lt_add_one (r - 1 / 2)
  linarith

theorem c_round_abs_le (r : ℚ) : |(c_round r : ℚ) - r| ≤ 1 / 2 := by
  rw [abs_le]
  rcases le_or_lt 0 r with h | h
  · obtain ⟨_, h1, h2⟩ := c_round_nonneg_bounds r h
    constructor <;> linarith
  · obtain ⟨_, h1, h2⟩ := c_round_neg_bounds r h
    constructor <;> linarith

theorem c_round_half_nonneg (r : ℚ) (h : 0 ≤ r) (m : Int) (hm : r = (m : ℚ) + 1 / 2) :
    (c_round r : ℚ) = r + 1 / 2 := by
  unfold c_round
  rw [if_pos h, hm]
  have e : (m : ℚ) + 1 / 2 + 1 / 2 = ((m + 1 : Int) : ℚ) := by push_cast; ring
  rw [e, Int.floor_intCast]

theorem c_round_half_neg (r : ℚ) (h : r < 0) (m : Int) (hm : r = (m : ℚ) + 1 / 2) :
    (c_round r : ℚ) = r - 1 / 2 := by
  unfold c_round
  rw [if_neg (not_le.mpr h), hm]
  have e : (m : ℚ) + 1 / 2 - 1 / 2 = ((m : Int) : ℚ) := by ring
  rw [e, Int.ceil_intCast]

theorem c_round_in_range (r : ℚ) (hlo : -2 ^ 63 - 1 / 2 < r) (hhi : r < 2 ^ 63 - 1 / 2) :
    LLONG_MIN ≤ c_round r ∧ c_round r ≤ LLONG_MAX := by
  unfold LLONG_MIN LLONG_MAX
  rcases le_or_lt 0 r with h | h
  · obtain ⟨h0, h1, _⟩ := c_round_nonneg_bounds r h
    have hq : (c_round r : ℚ) < ((2 ^ 63 : Int) : ℚ) := by push_cast; linarith
    have hz : c_round r < 2 ^ 63 := by exact_mod_cast hq
    constructor <;> omega
  · obtain ⟨h0, h1, _⟩ := c_round_neg_bounds r h
    have hq : ((-2 ^ 63 - 1 : Int) : ℚ) < (c_round r : ℚ) := by push_cast; linarith
    have hz : -2 ^ 63 - 1 < c_round r := by exact_mod_cast hq
    constructor <;> omega

/-! ## Claims on the decoder -/

/-- C1: for a base `2 <= b <= 16` and a string whose characters are all hex
digits with digit value below `b`, `decode_value` is the positional-notation
value `Σ digit_i * b^(n-1-i)`; `decode_value "0" b = 0` for each such base; and
`decode_value "aed7015a346d63" 15` is the positional expansion of that string
in base 15 (the number 21394886326566393). -/
theorem decode_value_eq_positional_value :
    (∀ (b : Int) (s : List Char), 2 ≤ b → b ≤ 16 →
        (∀ c ∈ s, ∃ d : Nat, spec_digit c = some d ∧ (d : Int) < b) →
        decode_value s b = positional_value s b) ∧
    (∀ b : Int, 2 ≤ b → b ≤ 16 → decode_value ['0'] b = 0) ∧
    decode_value "aed7015a346d63".toList 15 = positional_value "aed7015a346d63".toList 15 ∧
    decode_value "aed7015a346d63".toList 15 = 21394886326566393 := by
  have main : ∀ (b : Int) (s : List Char),
      (∀ c ∈ s, ∃ d : Nat, spec_digit c = some d ∧ (d : Int) < b) →
      decode_value s b = positional_value s b := by
    intro b s
    induction s using List.reverseRecOn with
    | nil => intro _; simp [decode_value, positional_value]
    | append_singleton s c ih =>
      intro h
      obtain ⟨d, hd, hlt⟩ := h c (by simp)
      rw [decode_value_snoc, positional_value_snoc, decode_step_of_some b _ c d hd,
        if_neg (by omega), ih (fun x hx => h x (by simp [hx]))]
      simp [digit_value, hd]
  have hdigits : ∀ c ∈ "aed7015a346d63".toList,
      ∃ d : Nat, spec_digit c = some d ∧ (d : Int) < 15 := by
    intro c hc
    simp only [String.toList, List.mem_cons, List.mem_singleton, List.not_mem_nil,
      or_false] at hc
    rcases hc with h | h | h | h | h | h | h | h | h | h | h | h | h | h <;> subst h <;>
      exact ⟨_, rfl, by decide⟩
  refine ⟨fun b s _ _ h => main b s h, ?_, main 15 _ hdigits, ?_⟩
  · intro b h2 _
    have h0 : spec_digit '0' = some 0 := rfl
    have e : decode_value ['0'] b = decode_step b 0 '0' := rfl
    rw [e, decode_step_of_some b 0 '0' 0 h0, if_neg (by omega)]
    simp
  · simp [decode_value, decode_step, char_digit]
    norm_num

/-- Witness for C1: the hypotheses hold at base 15 and the string "1e". -/
theorem decode_value_eq_positional_value_witness :
    ((2 : Int) ≤ 15 ∧ (15 : Int) ≤ 16 ∧
      ∀ c ∈ ['1', 'e'], ∃ d : Nat, spec_digit c = some d ∧ (d : Int) < 15) ∧
    decode_value ['1', 'e'] 15 = positional_value ['1', 'e'] 15 :=
  have h : ∀ c ∈ ['1', 'e'], ∃ d : Nat, spec_digit c = some d ∧ (d : Int) < 15 := by
    intro c hc
    simp only [List.mem_cons, List.mem_singleton, List.not_mem_nil, or_false] at hc
    rcases hc with h | h <;> subst h <;> exact ⟨_, rfl, by decide⟩
  ⟨⟨by decide, by decide, h⟩,
    decode_value_eq_positional_value.1 15 ['1', 'e'] (by decide) (by decide) h⟩

/-- C6: a hex-digit character whose digit value is `>= base` is skipped and
decoding continues with the remaining characters. -/
theorem decode_value_skips_invalid_digit (b : Int) (s t : List Char) (c : Char) (d : Nat)
    (hc : spec_digit c = some d) (hd : (d : Int) ≥ b) :
    decode_value (s ++ [c] ++ t) b = decode_value (s ++ t) b := by
  apply decode_value_skip
  intro r
  rw [decode_step_of_some b r c d hc, if_pos hd]

/-- Witness for C6: the digit `'9'` is skipped in base 8. -/
theorem decode_value_skips_invalid_digit_witness :
    (spec_digit '9' = some 9 ∧ ((9 : Nat) : Int) ≥ 8) ∧
    decode_value (['1'] ++ ['9'] ++ ['7']) 8 = decode_value (['1'] ++ ['7']) 8 :=
  ⟨⟨rfl, by decide⟩,
    decode_value_skips_invalid_digit 8 ['1'] ['7'] '9' 9 rfl (by decide)⟩

/-- C7: a character outside the alphabet `0-9`, `a-f`, `A-F` is skipped without
failing, and `decode_value "g" 16 = 0`. -/
theorem decode_value_skips_non_alphabet :
    (∀ (b : Int) (s t : List Char) (c : Char), spec_digit c = none →
        decode_value (s ++ [c] ++ t) b = decode_value (s ++ t) b) ∧
    decode_value ['g'] 16 = 0 := by
  constructor
  · intro b s t c hc
    apply decode_value_skip
    intro r
    exact decode_step_of_none b r c hc
  · have e : decode_value ['g'] 16 = decode_step 16 0 'g' := rfl
    rw [e, decode_step_of_none 16 0 'g' rfl]

/-- Witness for C7: the character `'g'` between two digits is skipped. -/
theorem decode_value_skips_non_alphabet_witness :
    spec_digit 'g' = none ∧
    decode_value (['1'] ++ ['g'] ++ ['7']) 16 = decode_value (['1'] ++ ['7']) 16 :=
  ⟨rfl, decode_value_skips_non_alphabet.1 16 ['1'] ['7'] 'g' rfl⟩

/-- In exact arithmetic, on a string of characters `0-9` the base-16 value is at
least the base-10 value, and the two are equal exactly when every character
before the last one is `'0'`. -/
theorem decode_value_exact_hex_eq_decimal_iff (digits : List Char)
    (h : ∀ c ∈ digits, is_decimal_digit c) :
    decode_value digits 10 ≤ decode_value digits 16 ∧
    (decode_value digits 16 = decode_value digits 10 ↔ ∀ c ∈ digits.dropLast, c = '0') := by
  refine ⟨(decode_decimal_bounds digits h).2.1, ?_⟩
  rcases List.eq_nil_or_concat digits with hnil | ⟨s, c, hsc⟩
  · subst hnil; simp [decode_value]
  · rw [List.concat_eq_append] at hsc
    subst hsc
    have hs : ∀ c ∈ s, is_decimal_digit c := fun x hx => h x (by simp [hx])
    obtain ⟨h0, h1, h2⟩ := decode_decimal_bounds s hs
    obtain ⟨d, hd, h9, _⟩ := decimal_spec_digit c (h c (by simp))
    rw [List.dropLast_concat, ← h2, decode_value_snoc, decode_value_snoc,
      decode_step_decimal 10 (by norm_num) _ c d hd h9,
      decode_step_decimal 16 (by norm_num) _ c d hd h9]
    push_cast
    constructor
    · intro he; linarith
    · intro he
      have : decode_value s 10 = 0 := le_antisymm (he ▸ h1) h0
      rw [he, this]; ring

/-- C9: decoding is case-insensitive: replacing each letter `A-F` of the string
by its lower-case form does not change the decoded value, in any base. -/
theorem decode_value_case_insensitive (s : List Char) (b : Int) :
    decode_value s b = decode_value (s.map lower_hex) b := by
  unfold decode_value
  rw [List.foldl_map]
  congr 1
  funext r c
  exact (decode_step_lower_hex b r c).symm

/-! ## Claims on the reconstructor -/

/-- C4: `find_secret` fails with the "X values must be unique" error exactly
when two points at different positions have the same x-coordinate; that is its
only failure, a failure carries no value, and with pairwise distinct
x-coordinates it returns a value. -/
theorem find_secret_fails_iff_duplicate_x (points : List Point) :
    (find_secret points = Except.error duplicate_x_error ↔
      ∃ i j : Fin points.length, i ≠ j ∧ (points.get i).x = (points.get j).x) ∧
    (∀ e, find_secret points = Except.error e →
      e = duplicate_x_error ∧ ∀ v, find_secret points ≠ Except.ok v) ∧
    ((∀ i j : Fin points.length, i ≠ j → (points.get i).x ≠ (points.get j).x) →
      ∃ v, find_secret points = Except.ok v) := by
  have hok : (∀ i j : Fin points.length, i ≠ j → (points.get i).x ≠ (points.get j).x) →
      find_secret points = Except.ok (lagrange_at_zero points) := fun h =>
    find_secret_eq_lagrange points (nodup_of_no_duplicate_x points h)
  have hcases : find_secret points = Except.error duplicate_x_error ∨
      find_secret points = Except.ok (lagrange_at_zero points) := by
    by_cases h : ∃ i j : Fin points.length, i ≠ j ∧ (points.get i).x = (points.get j).x
    · exact Or.inl (find_secret_error_of_duplicate points h)
    · right
      apply hok
      intro i j hij hx
      exact h ⟨i, j, hij, hx⟩
  refine ⟨⟨?_, find_secret_error_of_duplicate points⟩, ?_, fun h => ⟨_, hok h⟩⟩
  · intro herr
    by_contra h
    have := hok (fun i j hij hx => h ⟨i, j, hij, hx⟩)
    rw [this] at herr
    cases herr
  · intro e he
    rcases hcases with h | h
    · rw [h] at he
      constructor
      · cases he; rfl
      · intro v hv; rw [h] at hv; cases hv
    · rw [h] at he
      cases he

/-- Witness for C4: two points with the same abscissa fail with the
duplicate-x error and no other; two points with different abscissas return a
value. -/
theorem find_secret_fails_iff_duplicate_x_witness :
    ((∃ i j : Fin ([⟨1, 4⟩, ⟨1, 7⟩] : List Point).length, i ≠ j ∧
        (([⟨1, 4⟩, ⟨1, 7⟩] : List Point).get i).x = (([⟨1, 4⟩, ⟨1, 7⟩] : List Point).get j).x) ∧
      find_secret [⟨1, 4⟩, ⟨1, 7⟩] = Except.error duplicate_x_error ∧
      ∀ v, find_secret [⟨1, 4⟩, ⟨1, 7⟩] ≠ Except.ok v) ∧
    ((∀ i j : Fin ([⟨1, 4⟩, ⟨2, 7⟩] : List Point).length, i ≠ j →
        (([⟨1, 4⟩, ⟨2, 7⟩] : List Point).get i).x ≠ (([⟨1, 4⟩, ⟨2, 7⟩] : List Point).get j).x) ∧
      ∃ v, find_secret [⟨1, 4⟩, ⟨2, 7⟩] = Except.ok v) :=
  have herr : find_secret [⟨1, 4⟩, ⟨1, 7⟩] = Except.error duplicate_x_error :=
    (find_secret_fails_iff_duplicate_x [⟨1, 4⟩, ⟨1, 7⟩]).1.mpr (by decide)
  ⟨⟨by decide, herr,
      ((find_secret_fails_iff_duplicate_x [⟨1, 4⟩, ⟨1, 7⟩]).2.1 duplicate_x_error herr).2⟩,
    ⟨by decide, (find_secret_fails_iff_duplicate_x [⟨1, 4⟩, ⟨2, 7⟩]).2.2 (by decide)⟩⟩

/-- C5: `find_secret` is invariant under permutation of its input: a list of
points and any permutation of it give the same outcome, the same value or the
same failure. -/
theorem find_secret_perm (points points' : List Point) (h : points.Perm points') :
    find_secret points = find_secret points' := by
  by_cases hn : (points.map Point.x).Nodup
  · have hn' : (points'.map Point.x).Nodup := ((h.map Point.x).nodup_iff).mp hn
    rw [find_secret_eq_symmetric points hn, find_secret_eq_symmetric points' hn',
      symmetric_sum_perm points points' h]
  · have hn' : ¬ (points'.map Point.x).Nodup := fun h' => hn (((h.map Point.x).nodup_iff).mpr h')
    rw [find_secret_error_of_duplicate points (exists_duplicate_x points hn),
      find_secret_error_of_duplicate points' (exists_duplicate_x points' hn')]

/-- Witness for C5: two points in both orders. -/
theorem find_secret_perm_witness :
    ([⟨1, 4⟩, ⟨2, 7⟩] : List Point).Perm [⟨2, 7⟩, ⟨1, 4⟩] ∧
    find_secret [⟨1, 4⟩, ⟨2, 7⟩] = find_secret [⟨2, 7⟩, ⟨1, 4⟩] :=
  ⟨List.Perm.swap _ _ _, find_secret_perm _ _ (List.Perm.swap _ _ _)⟩

/-! ## Claims on the reported secret -/

/-- C10 refuted: the program can reach the raw value `2^63` (one share with
the base-16 digits "8000000000000000"); there the conversion to `long long` is
undefined, and no `long long` lies within `1/2` of the raw value. -/
theorem final_secret_out_of_range :
    find_secret [⟨1, decode_value "8000000000000000".toList 16⟩] = Except.ok (2 ^ 63) ∧
    final_secret (2 ^ 63) = none ∧
    ∀ n : Int, LLONG_MIN ≤ n → n ≤ LLONG_MAX → ¬ |(n : ℚ) - 2 ^ 63| ≤ 1 / 2 := by
  refine ⟨?_, ?_, ?_⟩
  · have hd : decode_value "8000000000000000".toList 16 = 2 ^ 63 := by
      simp [decode_value, decode_step, char_digit]
      norm_num
    rw [hd]
    simp [find_secret, secret_step, basis_step, point_at, List.range, List.range.loop]
    rfl
  · have hr : c_round (2 ^ 63) = 2 ^ 63 := by
      unfold c_round
      rw [if_pos (by positivity), Int.floor_eq_iff]
      constructor <;> norm_num
    unfold final_secret to_long_long
    rw [hr, if_neg]
    unfold LLONG_MIN LLONG_MAX
    omega
  · intro n _ hmax habs
    unfold LLONG_MAX at hmax
    have h1 := (abs_le.mp habs).1
    have h2 : (n : ℚ) ≤ ((2 ^ 63 - 1 : Int) : ℚ) := by exact_mod_cast hmax
    push_cast at h2
    linarith

/-- C10 amended: for a raw value `r` with `-2^63 - 1/2 < r < 2^63 - 1/2` the
program reports an integer `n` with `|n - r| ≤ 1/2`, where `n = r + 1/2` when
`r ≥ 0` is a half-integer and `n = r - 1/2` when `r < 0` is a half-integer. -/
theorem final_secret_rounds_half_away (r : ℚ)
    (hlo : -2 ^ 63 - 1 / 2 < r) (hhi : r < 2 ^ 63 - 1 / 2) :
    ∃ n : Int, final_secret r = some n ∧ |(n : ℚ) - r| ≤ 1 / 2 ∧
      (0 ≤ r → (∃ m : Int, r = (m : ℚ) + 1 / 2) → (n : ℚ) = r + 1 / 2) ∧
      (r < 0 → (∃ m : Int, r = (m : ℚ) + 1 / 2) → (n : ℚ) = r - 1 / 2) := by
  refine ⟨c_round r, ?_, c_round_abs_le r, ?_, ?_⟩
  · unfold final_secret to_long_long
    rw [if_pos (c_round_in_range r hlo hhi)]
  · rintro h ⟨m, hm⟩
    exact c_round_half_nonneg r h m hm
  · rintro h ⟨m, hm⟩
    exact c_round_half_neg r h m hm

/-- Witness for C10 amended: the half-integer `5/2` is reported as 3 and the
half-integer `-5/2` as -3. -/
theorem final_secret_rounds_half_away_witness :
    ((-2 ^ 63 - 1 / 2 : ℚ) < 5 / 2 ∧ (5 / 2 : ℚ) < 2 ^ 63 - 1 / 2 ∧
      (-2 ^ 63 - 1 / 2 : ℚ) < -5 / 2 ∧ (-5 / 2 : ℚ) < 2 ^ 63 - 1 / 2) ∧
    final_secret (5 / 2) = some 3 ∧ final_secret (-5 / 2) = some (-3) := by
  refine ⟨⟨by norm_num, by norm_num, by norm_num, by norm_num⟩, ?_, ?_⟩
  · obtain ⟨n, hn, _, hpos, _⟩ :=
      final_secret_rounds_half_away (5 / 2) (by norm_num) (by norm_num)
    have h3 : (n : ℚ) = ((3 : Int) : ℚ) := by
      rw [hpos (by norm_num) ⟨2, by norm_num⟩]; norm_num
    rw [hn, Int.cast_injective h3]
  · obtain ⟨n, hn, _, _, hneg⟩ :=
      final_secret_rounds_half_away (-5 / 2) (by norm_num) (by norm_num)
    have h3 : (n : ℚ) = ((-3 : Int) : ℚ) := by
      rw [hneg (by norm_num) ⟨-3, by norm_num⟩]; norm_num
    rw [hn, Int.cast_injective h3]

/-! ## Lemmas on diagnostics, concatenation and bounds of the decoder -/

theorem decode_step_io_eq (b : Int) (r : ℚ) (w : List String) (c : Char) :
    decode_step_io b (r, w) c
      = (decode_step b r c, w ++ ([c].filter (is_invalid_digit b)).map (fun x => warning_line x b)) := by
  unfold decode_step_io decode_step is_invalid_digit
  rw [char_digit_eq_spec]
  cases h : spec_digit c with
  | none => simp [h]
  | some d =>
    by_cases hd : (d : Int) ≥ b
    · simp [h, hd]
    · simp [h, hd]

theorem decode_fold_io (b : Int) (s : List Char) (r : ℚ) (w : List String) :
    s.foldl (decode_step_io b) (r, w)
      = (s.foldl (decode_step b) r,
          w ++ (s.filter (is_invalid_digit b)).map (fun x => warning_line x b)) := by
  induction s generalizing r w with
  | nil => simp
  | cons c s ih =>
    rw [List.foldl_cons, decode_step_io_eq, ih, List.foldl_cons]
    congr 1
    rw [List.append_assoc, ← List.map_append, ← List.filter_append]
    rfl

theorem decode_step_accepted (b : Int) (c : Char) (h : is_accepted_digit b c = true) :
    ∃ d : Nat, spec_digit c = some d ∧ (d : Int) < b ∧
      ∀ r, decode_step b r c = r * (b : ℚ) + (d : ℚ) := by
  unfold is_accepted_digit at h
  cases hs : spec_digit c with
  | none => rw [hs] at h; cases h
  | some d =>
    rw [hs] at h
    have hd : (d : Int) < b := of_decide_eq_true h
    refine ⟨d, rfl, hd, fun r => ?_⟩
    rw [decode_step_of_some b r c d hs, if_neg (by omega)]

theorem decode_step_not_accepted (b : Int) (c : Char) (h : is_accepted_digit b c = false)
    (r : ℚ) : decode_step b r c = r := by
  unfold is_accepted_digit at h
  cases hs : spec_digit c with
  | none => exact decode_step_of_none b r c hs
  | some d =>
    rw [hs] at h
    have hd : ¬ (d : Int) < b := of_decide_eq_false h
    rw [decode_step_of_some b r c d hs, if_pos (by omega)]

theorem accepted_count_cons (b : Int) (c : Char) (s : List Char) :
    accepted_count b (c :: s)
      = accepted_count b s + (if is_accepted_digit b c = true then 1 else 0) := by
  unfold accepted_count
  rw [List.countP_cons]

theorem accepted_count_snoc (b : Int) (s : List Char) (c : Char) :
    accepted_count b (s ++ [c])
      = accepted_count b s + (if is_accepted_digit b c = true then 1 else 0) := by
  unfold accepted_count
  rw [List.countP_append, List.countP_cons]
  simp

/-- The loop started from `r` is the loop started from `0` shifted by `r`. -/
theorem decode_fold_shift (b : Int) (t : List Char) (r : ℚ) :
    t.foldl (decode_step b) r
      = r * (b : ℚ) ^ accepted_count b t + t.foldl (decode_step b) 0 := by
  induction t generalizing r with
  | nil => simp [accepted_count]
  | cons c t ih =>
    rw [List.foldl_cons, List.foldl_cons, ih (decode_step b r c), ih (decode_step b 0 c),
      accepted_count_cons]
    cases h : is_accepted_digit b c with
    | true =>
      obtain ⟨d, _, _, hstep⟩ := decode_step_accepted b c h
      rw [hstep r, hstep 0]
      simp only [if_true]
      ring
    | false =>
      rw [decode_step_not_accepted b c h r, decode_step_not_accepted b c h 0]
      simp

theorem decode_value_append (b : Int) (s t : List Char) :
    decode_value (s ++ t) b
      = decode_value s b * (b : ℚ) ^ accepted_count b t + decode_value t b := by
  unfold decode_value
  rw [List.foldl_append, decode_fold_shift]

theorem decode_value_zeros (b : Int) (n : Nat) : decode_value (List.replicate n '0') b = 0 := by
  induction n with
  | zero => rfl
  | succ n ih =>
    rw [List.replicate_succ', decode_value_snoc, ih]
    have h0 : spec_digit '0' = some 0 := rfl
    rw [decode_step_of_some b 0 '0' 0 h0]
    split <;> simp

/-- For a base `>= 1` the decoded value is a natural number below
`base ^ accepted_count`. -/
theorem decode_value_int_bound (b : Int) (hb : 1 ≤ b) (s : List Char) :
    ∃ n : Int, decode_value s b = (n : ℚ) ∧ 0 ≤ n ∧ n < b ^ accepted_count b s := by
  induction s using List.reverseRecOn with
  | nil => exact ⟨0, by simp [decode_value], le_refl _, by simp [accepted_count]⟩
  | append_singleton s c ih =>
    obtain ⟨n, hn, h0, hlt⟩ := ih
    rw [decode_value_snoc, accepted_count_snoc]
    cases h : is_accepted_digit b c with
    | true =>
      obtain ⟨d, _, hd, hstep⟩ := decode_step_accepted b c h
      refine ⟨n * b + d, ?_, ?_, ?_⟩
      · rw [hstep, hn]; push_cast; ring
      · have : 0 ≤ n * b := mul_nonneg h0 (by omega)
        omega
      · simp only [if_true]
        rw [pow_succ]
        have h1 : n + 1 ≤ b ^ accepted_count b s := hlt
        have h2 : (n + 1) * b ≤ b ^ accepted_count b s * b :=
          mul_le_mul_of_nonneg_right h1 (by omega)
        have h3 : (n + 1) * b = n * b + b := by ring
        omega
    | false =>
      refine ⟨n, ?_, h0, ?_⟩
      · rw [decode_step_not_accepted b c h, hn]
      · simpa using hlt

theorem decode_value_base_le_one (b : Int) (hb : b ≤ 1) (s : List Char) :
    decode_value s b = 0 := by
  induction s using List.reverseRecOn with
  | nil => rfl
  | append_singleton s c ih =>
    rw [decode_value_snoc, ih]
    cases h : is_accepted_digit b c with
    | true =>
      obtain ⟨d, _, hd, hstep⟩ := decode_step_accepted b c h
      have hd0 : d = 0 := by omega
      rw [hstep, hd0]
      simp
    | false => exact decode_step_not_accepted b c h 0

/-! ## Further lemmas on the reconstructor -/

/-- With pairwise distinct abscissas and a point at `x = 0`, the Lagrange sum
reduces to the ordinate of that point. -/
theorem lagrange_at_zero_of_zero_x (points : List Point) (hn : (points.map Point.x).Nodup)
    (j0 : Fin points.length) (h0 : (points.get j0).x = 0) :
    lagrange_at_zero points = (points.get j0).y := by
  have hne : ∀ i : Fin points.length, i ≠ j0 → (points.get i).x ≠ 0 := by
    intro i hi hx
    apply hi
    have hx' : (point_at points i).x = (point_at points j0).x := by
      rw [point_at_eq_get, point_at_eq_get, hx, h0]
    exact Fin.ext (x_index_inj points hn i j0 i.2 j0.2 hx')
  unfold lagrange_at_zero
  rw [Finset.sum_eq_single j0]
  · have hprod : ∏ i in Finset.univ.erase j0,
        (-((points.get i).x : ℚ) / (((points.get j0).x : ℚ) - ((points.get i).x : ℚ))) = 1 := by
      apply Finset.prod_eq_one
      intro i hi
      have hxi : ((points.get i).x : ℚ) ≠ 0 := by
        exact_mod_cast hne i (Finset.ne_of_mem_erase hi)
      rw [h0, Int.cast_zero, zero_sub]
      exact div_self (neg_ne_zero.mpr hxi)
    rw [hprod, mul_one]
  · intro j _ hj
    have hmem : j0 ∈ Finset.univ.erase j := Finset.mem_erase.mpr ⟨fun h => hj h.symm, Finset.mem_univ _⟩
    rw [Finset.prod_eq_zero hmem, mul_zero]
    rw [h0]
    simp
  · intro h
    exact absurd (Finset.mem_univ j0) h

theorem exists_index_of_mem (points : List Point) (p : Point) (hp : p ∈ points) :
    ∃ j : Fin points.length, points.get j = p := by
  obtain ⟨i, hi, he⟩ := List.getElem_of_mem hp
  exact ⟨⟨i, hi⟩, he⟩

/-- The symmetric sum of points built from a list of triples `(x, y, y')`,
as a weighted sum of the chosen ordinates with weights depending on the
abscissas only. -/
theorem symmetric_sum_map (l : List (Int × ℚ × ℚ)) (f : Int × ℚ × ℚ → ℚ) :
    symmetric_sum (l.map (fun t => (⟨t.1, f t⟩ : Point)))
      = (l.map (fun t => f t *
          (l.map (fun u => pair_factor ⟨t.1, 0⟩ ⟨u.1, 0⟩)).prod)).sum := by
  unfold symmetric_sum
  rw [List.map_map]
  congr 1
  apply List.map_congr_left
  intro t _
  simp only [Function.comp]
  congr 1
  rw [List.map_map]
  rfl

theorem list_sum_map_linear (l : List (Int × ℚ × ℚ)) (w g h : Int × ℚ × ℚ → ℚ) (a b : ℚ) :
    (l.map (fun t => (a * g t + b * h t) * w t)).sum
      = a * (l.map (fun t => g t * w t)).sum + b * (l.map (fun t => h t * w t)).sum := by
  induction l with
  | nil => simp
  | cons t l ih =>
    simp only [List.map_cons, List.sum_cons, ih]
    ring

theorem find_secret_nil : find_secret [] = Except.ok 0 := rfl

theorem find_secret_singleton (x : Int) (y : ℚ) : find_secret [⟨x, y⟩] = Except.ok y := by
  simp [find_secret, secret_step, basis_step, point_at, List.range, List.range.loop]
  rfl

/-! ## Further claims on the decoder -/

/-- C12: decoding never fails and writes one warning per invalid digit: the
value returned is that of `decode_value`, and the lines on `cerr` are, in
order, the warnings for the characters of the alphabet with digit value
`>= base`; their number is the number of such characters. Characters outside
the alphabet and accepted digits write nothing. -/
theorem decode_value_io_warnings (s : List Char) (b : Int) :
    (decode_value_io s b).1 = decode_value s b ∧
    (decode_value_io s b).2
      = (s.filter (is_invalid_digit b)).map (fun c => warning_line c b) ∧
    (decode_value_io s b).2.length = s.countP (is_invalid_digit b) := by
  have h : decode_value_io s b
      = (decode_value s b, (s.filter (is_invalid_digit b)).map (fun c => warning_line c b)) := by
    unfold decode_value_io decode_value
    rw [decode_fold_io]
    simp
  rw [h]
  refine ⟨rfl, rfl, ?_⟩
  rw [List.length_map, List.countP_eq_length_filter]

/-! ## Further claims on the reconstructor -/

/-- C17: `find_secret` is linear in the y-values: for pairwise distinct
x-coordinates, given as the first components of the triples `(x_i, y_i, y'_i)`,
and scalars `a`, `b`, the result on the points `(x_i, a*y_i + b*y'_i)` is
`a` times the result on `(x_i, y_i)` plus `b` times the result on `(x_i, y'_i)`. -/
theorem find_secret_linear (l : List (Int × ℚ × ℚ)) (a b : ℚ)
    (hn : (l.map (fun t => t.1)).Nodup) :
    ∃ v v' : ℚ,
      find_secret (l.map (fun t => (⟨t.1, t.2.1⟩ : Point))) = Except.ok v ∧
      find_secret (l.map (fun t => (⟨t.1, t.2.2⟩ : Point))) = Except.ok v' ∧
      find_secret (l.map (fun t => (⟨t.1, a * t.2.1 + b * t.2.2⟩ : Point)))
        = Except.ok (a * v + b * v') := by
  have hx : ∀ f : Int × ℚ × ℚ → ℚ,
      ((l.map (fun t => (⟨t.1, f t⟩ : Point))).map Point.x).Nodup := by
    intro f
    rw [List.map_map]
    exact hn
  refine ⟨_, _, find_secret_eq_symmetric _ (hx (fun t => t.2.1)),
    find_secret_eq_symmetric _ (hx (fun t => t.2.2)), ?_⟩
  rw [find_secret_eq_symmetric _ (hx (fun t => a * t.2.1 + b * t.2.2))]
  congr 1
  rw [symmetric_sum_map l (fun t => t.2.1), symmetric_sum_map l (fun t => t.2.2),
    symmetric_sum_map l (fun t => a * t.2.1 + b * t.2.2)]
  exact list_sum_map_linear l _ (fun t => t.2.1) (fun t => t.2.2) a b

/-- Witness for C17: abscissas 1, 2 with `y = (4, 7)`, `y' = (1, 0)`,
`a = 2`, `b = 3`. -/
theorem find_secret_linear_witness :
    (([(1, 4, 1), (2, 7, 0)] : List (Int × ℚ × ℚ)).map (fun t => t.1)).Nodup ∧
    ∃ v v' : ℚ,
      find_secret (([(1, 4, 1), (2, 7, 0)] : List (Int × ℚ × ℚ)).map
        (fun t => (⟨t.1, t.2.1⟩ : Point))) = Except.ok v ∧
      find_secret (([(1, 4, 1), (2, 7, 0)] : List (Int × ℚ × ℚ)).map
        (fun t => (⟨t.1, t.2.2⟩ : Point))) = Except.ok v' ∧
      find_secret (([(1, 4, 1), (2, 7, 0)] : List (Int × ℚ × ℚ)).map
        (fun t => (⟨t.1, 2 * t.2.1 + 3 * t.2.2⟩ : Point))) = Except.ok (2 * v + 3 * v') :=
  ⟨by decide, find_secret_linear [(1, 4, 1), (2, 7, 0)] 2 3 (by decide)⟩

/-- C18: on the empty list `find_secret` returns `0` without failing, and on a
single point `(x, y)` it returns `y` for every `x`, `x = 0` included. -/
theorem find_secret_degenerate :
    find_secret [] = Except.ok 0 ∧
    (∀ (x : Int) (y : ℚ), find_secret [⟨x, y⟩] = Except.ok y) ∧
    (∀ y : ℚ, find_secret [⟨0, y⟩] = Except.ok y) :=
  ⟨find_secret_nil, find_secret_singleton, find_secret_singleton 0⟩

/-! ## Lemmas on the selection of the shares -/

theorem share_points_append_singleton (stoll stoi : String → Option Int) (l : List Entry)
    (e : Entry) :
    share_points stoll stoi (e :: l)
      = (share_point stoll stoi e).bind (fun p =>
          (share_points stoll stoi l).map (fun ps => p :: ps)) := by
  rfl

/-- The loop returns the points it started with followed by the decoded points
of the shares it takes, or stops on the first of them that does not parse. -/
theorem collect_points_eq (stoll stoi : String → Option Int) (k : Int) (data : List Entry)
    (points : List Point) (points_count : Int) :
    collect_points stoll stoi k data points points_count
      = (share_points stoll stoi ((shares data).take (k - points_count).toNat)).map
          (fun ps => points ++ ps) := by
  induction data generalizing points points_count with
  | nil => simp [collect_points, shares, share_points]
  | cons element rest ih =>
    unfold collect_points
    by_cases hkey : element.key = "keys"
    · rw [if_pos hkey, ih]
      simp [shares, hkey]
    · rw [if_neg hkey]
      have hs : shares (element :: rest) = element :: shares rest := by
        simp [shares, hkey]
      by_cases hlt : points_count < k
      · rw [if_pos hlt, hs]
        have hn : (k - points_count).toNat = (k - (points_count + 1)).toNat + 1 := by omega
        rw [hn, List.take_succ_cons, share_points_append_singleton]
        unfold share_point
        cases hx : stoll element.key with
        | none => rfl
        | some x =>
          cases hb : stoi element.base with
          | none => rfl
          | some base =>
            simp only [ih, Option.bind]
            cases share_points stoll stoi
              ((shares rest).take (k - (points_count + 1)).toNat) with
            | none => rfl
            | some ps => simp
      · rw [if_neg hlt, hs]
        have hn : (k - points_count).toNat = 0 := by omega
        rw [hn]
        simp [share_points]

theorem collect_points_start (stoll stoi : String → Option Int) (k : Int)
    (data : List Entry) :
    collect_points stoll stoi k data [] 0
      = share_points stoll stoi ((shares data).take k.toNat) := by
  rw [collect_points_eq, Int.sub_zero]
  cases share_points stoll stoi ((shares data).take k.toNat) <;> simp

theorem shares_append (data extra : List Entry) :
    shares (data ++ extra) = shares data ++ shares extra := by
  unfold shares
  rw [List.filter_append]

theorem share_point_of_parses (stoll stoi : String → Option Int) (e : Entry)
    (h : share_parses stoll stoi e) : ∃ p, share_point stoll stoi e = some p := by
  obtain ⟨hx, hb⟩ := h
  unfold share_point
  cases hx' : stoll e.key with
  | none => rw [hx'] at hx; cases hx
  | some x =>
    cases hb' : stoi e.base with
    | none => rw [hb'] at hb; cases hb
    | some base => exact ⟨_, rfl⟩

theorem share_point_of_not_parses (stoll stoi : String → Option Int) (e : Entry)
    (h : ¬ share_parses stoll stoi e) : share_point stoll stoi e = none := by
  unfold share_point
  cases hx : stoll e.key with
  | none => rfl
  | some x =>
    cases hb : stoi e.base with
    | none => rfl
    | some base =>
      exfalso
      apply h
      unfold share_parses
      rw [hx, hb]
      exact ⟨rfl, rfl⟩

/-- When every share of the list parses the decoded points exist, one per
share. -/
theorem share_points_of_parses (stoll stoi : String → Option Int) (l : List Entry)
    (h : ∀ e ∈ l, share_parses stoll stoi e) :
    ∃ ps, share_points stoll stoi l = some ps ∧ ps.length = l.length := by
  induction l with
  | nil => exact ⟨[], rfl, rfl⟩
  | cons e l ih =>
    obtain ⟨p, hp⟩ := share_point_of_parses stoll stoi e (h e (List.mem_cons_self _ _))
    obtain ⟨ps, hps, hlen⟩ := ih (fun a ha => h a (List.mem_cons_of_mem _ ha))
    refine ⟨p :: ps, ?_, by simp [hlen]⟩
    rw [share_points_append_singleton, hp, hps]
    rfl

/-- When some share of the list does not parse there are no decoded points. -/
theorem share_points_of_not_parses (stoll stoi : String → Option Int) (l : List Entry)
    (h : ∃ e ∈ l, ¬ share_parses stoll stoi e) : share_points stoll stoi l = none := by
  induction l with
  | nil => obtain ⟨e, he, _⟩ := h; simp at he
  | cons a l ih =>
    rw [share_points_append_singleton]
    by_cases ha : share_parses stoll stoi a
    · obtain ⟨e, he, hne⟩ := h
      rcases List.mem_cons.mp he with hea | hel
      · subst hea; exact absurd ha hne
      · rw [ih ⟨e, hel, hne⟩]
        cases share_point stoll stoi a <;> rfl
    · rw [share_point_of_not_parses stoll stoi a ha]
      rfl

/-! ## Claims on the selection of the shares -/

theorem wrap_long_long_of_is_long_long (v : Int) (h : is_long_long v) :
    wrap_long_long v = v := by
  unfold is_long_long LLONG_MIN LLONG_MAX at h
  unfold wrap_long_long
  omega

theorem wrap_long_long_sub_ne_zero (a b : Int) (ha : is_long_long a) (hb : is_long_long b)
    (hab : a ≠ b) : wrap_long_long (b - a) ≠ 0 := by
  unfold is_long_long LLONG_MIN LLONG_MAX at ha hb
  unfold wrap_long_long
  omega

theorem wrap_long_long_neg_ne_zero (a : Int) (ha : is_long_long a) (h0 : a ≠ 0) :
    wrap_long_long (-a) ≠ 0 := by
  unfold is_long_long LLONG_MIN LLONG_MAX at ha
  unfold wrap_long_long
  omega

theorem foldlM_congr_mem {α β : Type} (f g : β → α → Except String β) (l : List α)
    (h : ∀ a ∈ l, ∀ b, f b a = g b a) (init : β) :
    l.foldlM f init = l.foldlM g init := by
  induction l generalizing init with
  | nil => rfl
  | cons a l ih =>
    rw [List.foldlM_cons, List.foldlM_cons, h a (List.mem_cons_self _ _)]
    cases g init a with
    | error e => rfl
    | ok b => exact ih (fun x hx => h x (List.mem_cons_of_mem _ hx)) b

theorem point_at_mem (points : List Point) (i : Nat) (hi : i < points.length) :
    point_at points i ∈ points := by
  unfold point_at
  rw [List.getD_eq_getElem _ _ hi]
  exact List.getElem_mem _

/-- Without overflow the 64-bit reconstructor is the exact one. -/
theorem find_secret_ll_eq_find_secret (points : List Point)
    (hn : (points.map Point.x).Nodup) (hov : no_overflow (points.map Point.x)) :
    find_secret_ll points = find_secret points := by
  unfold find_secret_ll find_secret
  apply foldlM_congr_mem
  intro j hj secret
  have hj' : j < points.length := List.mem_range.mp hj
  unfold secret_step_ll secret_step
  have hin : (List.range points.length).foldlM (basis_step_ll points j) 1
      = (List.range points.length).foldlM (basis_step points j) 1 := by
    apply foldlM_congr_mem
    intro i hi acc
    have hi' : i < points.length := List.mem_range.mp hi
    unfold basis_step_ll basis_step
    by_cases hij : i = j
    · simp [hij]
    · have hx : (point_at points i).x ≠ (point_at points j).x := fun hx =>
        hij (x_index_inj points hn i j hi' hj' hx)
      obtain ⟨h1, h2⟩ := hov (point_at points i).x
        (List.mem_map_of_mem _ (point_at_mem points i hi'))
        (point_at points j).x (List.mem_map_of_mem _ (point_at_mem points j hj')) hx
      rw [wrap_long_long_of_is_long_long _ h1, wrap_long_long_of_is_long_long _ h2]
  rw [hin]

theorem basis_loop_ll_ok (points : List Point) (j : Nat) (l : List Nat)
    (h : ∀ i ∈ l, i ≠ j →
      wrap_long_long ((point_at points j).x - (point_at points i).x) ≠ 0) (acc : ℚ) :
    l.foldlM (basis_step_ll points j) acc
      = Except.ok (acc * (l.map (basis_factor_ll points j)).prod) := by
  induction l generalizing acc with
  | nil => simp [pure, Except.pure]
  | cons i l ih =>
    have hl : ∀ i ∈ l, i ≠ j →
        wrap_long_long ((point_at points j).x - (point_at points i).x) ≠ 0 :=
      fun a ha => h a (List.mem_cons_of_mem _ ha)
    rw [List.foldlM_cons]
    by_cases hij : i = j
    · subst hij
      simp only [basis_step_ll, if_true, pure_bind]
      rw [ih hl, List.map_cons, List.prod_cons]
      simp [basis_factor_ll]
    · have hx := h i (List.mem_cons_self _ _) hij
      have hden : ((wrap_long_long ((point_at points j).x - (point_at points i).x) : Int) : ℚ)
          ≠ 0 := by exact_mod_cast hx
      simp only [basis_step_ll, hij, if_false, hden, pure_bind]
      rw [ih hl, List.map_cons, List.prod_cons]
      simp only [basis_factor_ll, hij, if_false]
      rw [mul_assoc]

theorem secret_loop_ll_ok (points : List Point) (l : List Nat)
    (h : ∀ j ∈ l, ∀ i ∈ List.range points.length, i ≠ j →
      wrap_long_long ((point_at points j).x - (point_at points i).x) ≠ 0) (acc : ℚ) :
    l.foldlM (secret_step_ll points) acc
      = Except.ok (acc + (l.map (fun j => (point_at points j).y *
          ((List.range points.length).map (basis_factor_ll points j)).prod)).sum) := by
  induction l generalizing acc with
  | nil => simp [pure, Except.pure]
  | cons j l ih =>
    rw [List.foldlM_cons]
    have hj := basis_loop_ll_ok points j (List.range points.length)
      (h j (List.mem_cons_self _ _)) 1
    simp only [secret_step_ll, hj, bind, Except.bind, pure, Except.pure]
    have := ih (fun a ha => h a (List.mem_cons_of_mem _ ha))
      (acc + (point_at points j).y *
        (1 * ((List.range points.length).map (basis_factor_ll points j)).prod))
    simp only [secret_step_ll, bind, Except.bind, pure, Except.pure] at this
    rw [this, List.map_cons, List.sum_cons]
    congr 1
    ring

/-- With pairwise distinct `long long` abscissas the 64-bit reconstructor
returns, whether or not an operation overflows. -/
theorem find_secret_ll_index_form (points : List Point) (hn : (points.map Point.x).Nodup)
    (hr : ∀ p ∈ points, is_long_long p.x) :
    find_secret_ll points
      = Except.ok ((List.range points.length).map (fun j => (point_at points j).y *
          ((List.range points.length).map (basis_factor_ll points j)).prod)).sum := by
  unfold find_secret_ll
  rw [secret_loop_ll_ok points (List.range points.length) _ 0, zero_add]
  intro j hj i hi hij
  have hi' : i < points.length := List.mem_range.mp hi
  have hj' : j < points.length := List.mem_range.mp hj
  apply wrap_long_long_sub_ne_zero _ _ (hr _ (point_at_mem points i hi'))
    (hr _ (point_at_mem points j hj'))
  exact fun hx => hij (x_index_inj points hn i j hi' hj' hx)

/-- With pairwise distinct `long long` abscissas and a point at `x = 0`, the
64-bit reconstructor returns the ordinate of that point. -/
theorem find_secret_ll_of_zero_x (points : List Point) (hn : (points.map Point.x).Nodup)
    (hr : ∀ p ∈ points, is_long_long p.x)
    (j0 : Fin points.length) (h0 : (points.get j0).x = 0) :
    find_secret_ll points = Except.ok (points.get j0).y := by
  have hne : ∀ i : Nat, i < points.length → i ≠ j0 → (point_at points i).x ≠ 0 := by
    intro i hi hij hx
    apply hij
    have hx' : (point_at points i).x = (point_at points j0).x := by
      rw [point_at_eq_get points j0, hx, h0]
    exact x_index_inj points hn i j0 hi j0.2 hx'
  have hp0 : (point_at points j0).x = 0 := by rw [point_at_eq_get, h0]
  rw [find_secret_ll_index_form points hn hr, list_sum_range, Finset.sum_eq_single (j0 : Nat)]
  · have hprod : ((List.range points.length).map (basis_factor_ll points j0)).prod = 1 := by
      apply List.prod_eq_one
      intro f hf
      obtain ⟨i, hi, rfl⟩ := List.mem_map.mp hf
      unfold basis_factor_ll
      by_cases hij : i = j0
      · rw [if_pos hij]
      · rw [if_neg hij, hp0, zero_sub]
        have hxi := hne i (List.mem_range.mp hi) hij
        have hw : ((wrap_long_long (-(point_at points i).x) : Int) : ℚ) ≠ 0 := by
          exact_mod_cast wrap_long_long_neg_ne_zero _
            (hr _ (point_at_mem points i (List.mem_range.mp hi))) hxi
        exact div_self hw
    rw [hprod, mul_one, point_at_eq_get]
  · intro j hj hjne
    have hmem : (0 : ℚ) ∈ (List.range points.length).map (basis_factor_ll points j) := by
      apply List.mem_map.mpr
      refine ⟨j0, List.mem_range.mpr j0.2, ?_⟩
      unfold basis_factor_ll
      rw [if_neg (fun h => hjne h.symm), hp0]
      have : wrap_long_long (-0) = 0 := by decide
      rw [this]
      simp
    rw [List.prod_eq_zero hmem, mul_zero]
  · intro h
    exact absurd (Finset.mem_range.mpr j0.2) h

/-- The sample run with overflow: the points `(2^62, 3)` and `(-2^62, 3)`. The
difference `2^62 - (-2^62) = 2^63` does not fit a `long long`. -/
theorem find_secret_ll_overflow :
    find_secret_ll [⟨2 ^ 62, 3⟩, ⟨-2 ^ 62, 3⟩] = Except.ok 0 := by
  have w1 : wrap_long_long 4611686018427387904 = 4611686018427387904 := by decide
  have w2 : wrap_long_long 9223372036854775808 = -9223372036854775808 := by decide
  have w3 : wrap_long_long (-4611686018427387904) = -4611686018427387904 := by decide
  have w4 : wrap_long_long (-9223372036854775808) = -9223372036854775808 := by decide
  simp [find_secret_ll, secret_step_ll, basis_step_ll, point_at, List.range, List.range.loop,
    w1, w2, w3, w4]
  norm_num
  rfl

theorem find_secret_no_overflow_value :
    find_secret [⟨2 ^ 62, 3⟩, ⟨-2 ^ 62, 3⟩] = Except.ok 3 := by
  simp [find_secret, secret_step, basis_step, point_at, List.range, List.range.loop]
  norm_num
  rfl

/-! ## Lemmas on `long double` rounding -/

theorem round_half_even_intCast (n : Int) : round_half_even (n : ℚ) = n := by
  unfold round_half_even
  rw [Int.floor_intCast]
  simp

theorem two_pow_64_le_LDBL_MAX : (2 : ℚ) ^ 64 ≤ LDBL_MAX := by
  unfold LDBL_MAX
  have h : (2 : ℚ) ≤ 2 ^ 16320 := by
    calc (2 : ℚ) = 2 ^ 1 := by norm_num
      _ ≤ 2 ^ 16320 := pow_le_pow_right₀ (by norm_num) (by norm_num)
  nlinarith

theorem two_pow_1000_le_LDBL_MAX : (2 : ℚ) ^ 1000 ≤ LDBL_MAX := by
  unfold LDBL_MAX
  have h : (2 : ℚ) ^ 1000 ≤ 2 ^ 16320 := pow_le_pow_right₀ (by norm_num) (by norm_num)
  have h0 : (0 : ℚ) ≤ 2 ^ 16320 := by positivity
  have h1 : (1 : ℚ) ≤ 2 ^ 64 - 1 := by norm_num
  nlinarith

theorem int_log_two_eq (q : ℚ) (e : Int) (hq : 0 < q) (h1 : (2 : ℚ) ^ e ≤ q)
    (h2 : q < (2 : ℚ) ^ (e + 1)) : Int.log 2 q = e := by
  have hb : 1 < 2 := by norm_num
  have hle : e ≤ Int.log 2 q := (Int.zpow_le_iff_le_log hb hq).mp (by exact_mod_cast h1)
  have hlt : Int.log 2 q < e + 1 := (Int.lt_zpow_iff_log_lt hb hq).mp (by exact_mod_cast h2)
  omega

/-- An integer of fewer than 64 bits is a `long double`: it is not rounded. -/
theorem ld_round_intCast (n : Int) (h : |n| < 2 ^ 64) :
    ld_round (n : ℚ) = LongDouble.finite (n : ℚ) := by
  unfold ld_round
  by_cases h0 : (n : ℚ) = 0
  · rw [if_pos h0, h0]
  · rw [if_neg h0]
    have hn0 : n ≠ 0 := by
      intro hn; apply h0; rw [hn]; simp
    have hb : 1 < 2 := by norm_num
    have habs_pos : (0 : ℚ) < |(n : ℚ)| := abs_pos.mpr h0
    have habs1 : (1 : ℚ) ≤ |(n : ℚ)| := by
      have : (1 : Int) ≤ |n| := Int.one_le_abs hn0
      exact_mod_cast this
    have habs64 : |(n : ℚ)| < 2 ^ 64 := by exact_mod_cast h
    have hlog0 : 0 ≤ Int.log 2 |(n : ℚ)| :=
      (Int.zpow_le_iff_le_log hb habs_pos).mp (by simpa using habs1)
    have hlog64 : Int.log 2 |(n : ℚ)| < 64 :=
      (Int.lt_zpow_iff_log_lt hb habs_pos).mp (by exact_mod_cast habs64)
    obtain ⟨t, ht⟩ : ∃ t : Nat, Int.log 2 |(n : ℚ)| = 63 - (t : Int) :=
      ⟨(63 - Int.log 2 |(n : ℚ)|).toNat, by omega⟩
    have hmax : max (Int.log 2 |(n : ℚ)|) (LDBL_MIN_EXP - 1) = 63 - (t : Int) := by
      unfold LDBL_MIN_EXP
      rw [max_eq_left (by omega), ht]
    simp only [hmax]
    have hulp : (2 : ℚ) ^ (63 - (t : Int) - (LDBL_MANT_DIG - 1)) = ((2 : ℚ) ^ t)⁻¹ := by
      unfold LDBL_MANT_DIG
      have : (63 - (t : Int) - (64 - 1)) = -(t : Int) := by ring
      rw [this, zpow_neg, zpow_natCast]
    rw [hulp]
    have hpos : (0 : ℚ) < 2 ^ t := by positivity
    have hq : (n : ℚ) / ((2 : ℚ) ^ t)⁻¹ = ((n * 2 ^ t : Int) : ℚ) := by
      push_cast
      field_simp
    rw [hq, round_half_even_intCast]
    have hv : ((n * 2 ^ t : Int) : ℚ) * ((2 : ℚ) ^ t)⁻¹ = (n : ℚ) := by
      push_cast
      field_simp
    rw [hv, if_neg]
    have := two_pow_64_le_LDBL_MAX
    linarith

/-- The rounding of a nonzero number whose binary exponent `e` and rounded
significand `m` are known. -/
theorem ld_round_eval (q : ℚ) (e m : Int) (hq : 0 < q) (h1 : (2 : ℚ) ^ e ≤ q)
    (h2 : q < (2 : ℚ) ^ (e + 1)) (he : -16382 ≤ e)
    (hm : round_half_even (q / 2 ^ (e - 63)) = m)
    (hmax : |(m : ℚ) * 2 ^ (e - 63)| ≤ (2 : ℚ) ^ 1000) :
    ld_round q = LongDouble.finite ((m : ℚ) * 2 ^ (e - 63)) := by
  unfold ld_round
  rw [if_neg (ne_of_gt hq), abs_of_pos hq, int_log_two_eq q e hq h1 h2]
  have hmx : max e (LDBL_MIN_EXP - 1) = e := by
    unfold LDBL_MIN_EXP
    exact max_eq_left (by omega)
  have hd : LDBL_MANT_DIG - 1 = 63 := by unfold LDBL_MANT_DIG; norm_num
  simp only [hmx, hd, hm]
  rw [if_neg]
  have := two_pow_1000_le_LDBL_MAX
  linarith

theorem round_half_even_down (q : ℚ) (f : Int) (h1 : (f : ℚ) ≤ q) (h2 : q - (f : ℚ) < 1 / 2) :
    round_half_even q = f := by
  have hf : ⌊q⌋ = f := Int.floor_eq_iff.mpr ⟨h1, by linarith⟩
  unfold round_half_even
  rw [hf, if_pos h2]

theorem round_half_even_up (q : ℚ) (f : Int) (h1 : q < (f : ℚ) + 1)
    (h2 : 1 / 2 < q - (f : ℚ)) : round_half_even q = f + 1 := by
  have hf : ⌊q⌋ = f := Int.floor_eq_iff.mpr ⟨by linarith, h1⟩
  unfold round_half_even
  rw [hf, if_neg (by linarith), if_pos h2]

theorem round_half_even_tie (q : ℚ) (f : Int) (h : q = (f : ℚ) + 1 / 2) (he : f % 2 = 0) :
    round_half_even q = f := by
  have hf : ⌊q⌋ = f := Int.floor_eq_iff.mpr ⟨by linarith, by linarith⟩
  unfold round_half_even
  rw [hf, if_neg (by linarith), if_neg (by linarith), if_pos he]

/-! ## Lemmas on the decoder in `long double` arithmetic -/

theorem decode_value_ld_snoc (s : List Char) (c : Char) (b : Int) :
    decode_value_ld (s ++ [c]) b = decode_step_ld b (decode_value_ld s b) c := by
  simp [decode_value_ld, List.foldl_append]

theorem decode_step_ld_of_some (b : Int) (r : LongDouble) (c : Char) (d : Nat)
    (h : spec_digit c = some d) :
    decode_step_ld b r c
      = if (d : Int) ≥ b then r else ld_add (ld_mul r (ld_of_int b)) (ld_of_int d) := by
  simp [decode_step_ld, char_digit_eq_spec, h]

theorem decode_step_ld_accepted (b : Int) (c : Char) (h : is_accepted_digit b c = true) :
    ∃ d : Nat, spec_digit c = some d ∧ (d : Int) < b ∧
      ∀ r, decode_step_ld b r c = ld_add (ld_mul r (ld_of_int b)) (ld_of_int d) := by
  obtain ⟨d, hs, hd, _⟩ := decode_step_accepted b c h
  refine ⟨d, hs, hd, fun r => ?_⟩
  rw [decode_step_ld_of_some b r c d hs, if_neg (by omega)]

theorem decode_step_ld_not_accepted (b : Int) (c : Char) (h : is_accepted_digit b c = false)
    (r : LongDouble) : decode_step_ld b r c = r := by
  unfold is_accepted_digit at h
  cases hs : spec_digit c with
  | none => simp [decode_step_ld, char_digit_eq_spec, hs]
  | some d =>
    rw [hs] at h
    have hd : ¬ (d : Int) < b := of_decide_eq_false h
    rw [decode_step_ld_of_some b r c d hs, if_pos (by omega)]

/-- One accumulation `result * base + digit` on integers of fewer than 64 bits
is exact in `long double`. -/
theorem ld_accumulate_exact (n b d : Int) (hn : 0 ≤ n) (hb : 1 ≤ b) (hb64 : b < 2 ^ 64)
    (hd : 0 ≤ d) (h : n * b + d < 2 ^ 64) :
    ld_add (ld_mul (LongDouble.finite (n : ℚ)) (ld_of_int b)) (ld_of_int d)
      = LongDouble.finite ((n * b + d : Int) : ℚ) := by
  have hnb : 0 ≤ n * b := mul_nonneg hn (by omega)
  have hd64 : |d| < 2 ^ 64 := by rw [abs_of_nonneg hd]; omega
  have hb64' : |b| < 2 ^ 64 := by rw [abs_of_nonneg (by omega)]; omega
  have hnb64 : |n * b| < 2 ^ 64 := by rw [abs_of_nonneg hnb]; omega
  have hs64 : |n * b + d| < 2 ^ 64 := by rw [abs_of_nonneg (by omega)]; omega
  unfold ld_of_int
  rw [ld_round_intCast d hd64, ld_round_intCast b hb64']
  have e1 : ld_mul (LongDouble.finite (n : ℚ)) (LongDouble.finite (b : ℚ))
      = ld_round ((n * b : Int) : ℚ) := by
    unfold ld_mul; push_cast; rfl
  rw [e1, ld_round_intCast _ hnb64]
  have e2 : ld_add (LongDouble.finite ((n * b : Int) : ℚ)) (LongDouble.finite (d : ℚ))
      = ld_round ((n * b + d : Int) : ℚ) := by
    unfold ld_add; push_cast; rfl
  rw [e2, ld_round_intCast _ hs64]

/-- While the exact value stays below `2^64` the decoder in `long double`
arithmetic returns it: no result is rounded. -/
theorem decode_value_ld_exact (b : Int) (hb : b < 2 ^ 31) (s : List Char)
    (h : decode_value s b < 2 ^ 64) :
    decode_value_ld s b = LongDouble.finite (decode_value s b) := by
  induction s using List.reverseRecOn with
  | nil => rfl
  | append_singleton s c ih =>
    rw [decode_value_ld_snoc]
    rw [decode_value_snoc] at h ⊢
    cases hacc : is_accepted_digit b c with
    | true =>
      obtain ⟨d, hsd, hd, hstep⟩ := decode_step_accepted b c hacc
      obtain ⟨d', hsd', _, hstep_ld⟩ := decode_step_ld_accepted b c hacc
      have hdd : d = d' := by
        rw [hsd] at hsd'
        exact Option.some.inj hsd'
      subst hdd
      have hb1 : 1 ≤ b := by omega
      obtain ⟨n, hn, hn0, _⟩ := decode_value_int_bound b hb1 s
      rw [hstep, hn] at h
      have hsum : n * b + (d : Int) < 2 ^ 64 := by
        have : ((n * b + (d : Int) : Int) : ℚ) < ((2 ^ 64 : Int) : ℚ) := by
          push_cast; exact h
        exact_mod_cast this
      have hnle : n ≤ n * b + (d : Int) := by nlinarith
      have hprev : decode_value s b < 2 ^ 64 := by
        rw [hn]
        have : n < 2 ^ 64 := by omega
        exact_mod_cast this
      rw [ih hprev, hstep_ld, hstep, hn,
        ld_accumulate_exact n b d hn0 hb1 (by omega) (by omega) hsum]
      push_cast
      rfl
    | false =>
      rw [decode_step_not_accepted b c hacc] at h ⊢
      rw [decode_step_ld_not_accepted b c hacc, ih h]

/-! ## Evaluations in `long double` arithmetic -/

theorem ld_round_eval_nat (q : ℚ) (k : Nat) (m : Int) (hq : 0 < q)
    (h1 : (2 : ℚ) ^ (63 + k) ≤ q) (h2 : q < (2 : ℚ) ^ (64 + k))
    (hm : round_half_even (q / 2 ^ k) = m) (hmax : |(m : ℚ) * 2 ^ k| ≤ (2 : ℚ) ^ 1000) :
    ld_round q = LongDouble.finite ((m : ℚ) * 2 ^ k) := by
  have e1 : ((63 : Int) + (k : Int)) - 63 = (k : Int) := by ring
  have hz : (2 : ℚ) ^ (((63 : Int) + (k : Int)) - 63) = (2 : ℚ) ^ k := by
    rw [e1, zpow_natCast]
  have h := ld_round_eval q ((63 : Int) + (k : Int)) m hq
    (by
      have : ((63 : Int) + (k : Int)) = ((63 + k : Nat) : Int) := by push_cast; ring
      rw [this, zpow_natCast]; exact h1)
    (by
      have : ((63 : Int) + (k : Int)) + 1 = ((64 + k : Nat) : Int) := by push_cast; ring
      rw [this, zpow_natCast]; exact h2)
    (by omega) (by rw [hz]; exact hm) (by rw [hz]; exact hmax)
  rw [hz] at h
  exact h

theorem ld_of_int_small (n : Int) (h : |n| < 2 ^ 64) :
    ld_of_int n = LongDouble.finite (n : ℚ) := ld_round_intCast n h

theorem ld_mul_finite (a b : ℚ) :
    ld_mul (LongDouble.finite a) (LongDouble.finite b) = ld_round (a * b) := rfl

theorem ld_add_finite (a b : ℚ) :
    ld_add (LongDouble.finite a) (LongDouble.finite b) = ld_round (a + b) := rfl

theorem decode_sixteen_f :
    decode_value "ffffffffffffffff".toList 16 = 18446744073709551615 := by
  simp [decode_value, decode_step, char_digit]
  norm_num

theorem ld_round_a : ld_round (295147905179352825840 : ℚ)
    = LongDouble.finite 295147905179352825840 := by
  have hm : round_half_even ((295147905179352825840 : ℚ) / 2 ^ 4)
      = 18446744073709551615 := by
    have e : (295147905179352825840 : ℚ) / 2 ^ 4 = ((18446744073709551615 : Int) : ℚ) := by
      norm_num
    rw [e, round_half_even_intCast]
  have h := ld_round_eval_nat 295147905179352825840 4 18446744073709551615 (by norm_num)
    (by norm_num) (by norm_num) hm (by norm_num)
  norm_num at h
  exact h

theorem ld_round_b : ld_round (295147905179352825855 : ℚ)
    = LongDouble.finite 295147905179352825856 := by
  have hm : round_half_even ((295147905179352825855 : ℚ) / 2 ^ 4)
      = 18446744073709551615 + 1 :=
    round_half_even_up _ _ (by norm_num) (by norm_num)
  have h := ld_round_eval_nat 295147905179352825855 4 (18446744073709551615 + 1) (by norm_num)
    (by norm_num) (by norm_num) hm (by norm_num)
  norm_num at h
  exact h

theorem decode_value_ld_seventeen_f :
    decode_value_ld ("ffffffffffffffff".toList ++ ['f']) 16
      = LongDouble.finite (16 ^ 17) := by
  have h16 : decode_value_ld "ffffffffffffffff".toList 16
      = LongDouble.finite 18446744073709551615 := by
    rw [decode_value_ld_exact 16 (by norm_num) _ (by rw [decode_sixteen_f]; norm_num),
      decode_sixteen_f]
  have hf : spec_digit 'f' = some 15 := rfl
  rw [decode_value_ld_snoc, h16, decode_step_ld_of_some 16 _ 'f' 15 hf, if_neg (by norm_num),
    ld_of_int_small 16 (by norm_num), ld_of_int_small _ (by norm_num), ld_mul_finite]
  norm_num
  rw [ld_round_a, ld_add_finite]
  norm_num
  rw [ld_round_b]

theorem decode_fffe :
    decode_value "fffffffffffffffe".toList 16 = 18446744073709551614 := by
  simp [decode_value, decode_step, char_digit]
  norm_num

theorem decode_81 : decode_value ['8', '1'] 16 = 129 := by
  simp [decode_value, decode_step, char_digit]
  norm_num

/-- A multiple `m * 2^k` of the spacing with `2^63 ≤ m < 2^64` is not rounded. -/
theorem ld_round_representable (m : Int) (k : Nat) (h1 : 2 ^ 63 ≤ m) (h2 : m < 2 ^ 64)
    (hk : k ≤ 900) : ld_round ((m : ℚ) * 2 ^ k) = LongDouble.finite ((m : ℚ) * 2 ^ k) := by
  have hm0 : (0 : ℚ) < (m : ℚ) := by
    have : (0 : Int) < m := by omega
    exact_mod_cast this
  have hpk : (0 : ℚ) < 2 ^ k := by positivity
  have hm1 : ((2 : ℚ) ^ 63) ≤ (m : ℚ) := by exact_mod_cast h1
  have hm2 : (m : ℚ) < (2 : ℚ) ^ 64 := by exact_mod_cast h2
  apply ld_round_eval_nat _ k m (by positivity)
  · rw [pow_add]; exact mul_le_mul_of_nonneg_right hm1 (le_of_lt hpk)
  · rw [pow_add]; exact mul_lt_mul_of_pos_right hm2 hpk
  · rw [mul_div_assoc, div_self (ne_of_gt hpk), mul_one, round_half_even_intCast]
  · rw [abs_of_pos (by positivity)]
    calc (m : ℚ) * 2 ^ k ≤ 2 ^ 64 * 2 ^ k :=
          mul_le_mul_of_nonneg_right (le_of_lt hm2) (le_of_lt hpk)
      _ = 2 ^ (64 + k) := by rw [pow_add]
      _ ≤ 2 ^ 1000 := pow_le_pow_right₀ (by norm_num) (by omega)

theorem ld_round_c : ld_round (295147905179352825824 : ℚ)
    = LongDouble.finite 295147905179352825824 := by
  have h := ld_round_representable 18446744073709551614 4 (by norm_num) (by norm_num)
    (by norm_num)
  norm_num at h
  exact h

theorem ld_round_d : ld_round (295147905179352825832 : ℚ)
    = LongDouble.finite 295147905179352825824 := by
  have hm : round_half_even ((295147905179352825832 : ℚ) / 2 ^ 4)
      = 18446744073709551614 :=
    round_half_even_tie _ _ (by norm_num) (by decide)
  have h := ld_round_eval_nat 295147905179352825832 4 18446744073709551614 (by norm_num)
    (by norm_num) (by norm_num) hm (by norm_num)
  norm_num at h
  exact h

theorem ld_round_e : ld_round (4722366482869645213184 : ℚ)
    = LongDouble.finite 4722366482869645213184 := by
  have h := ld_round_representable 18446744073709551614 8 (by norm_num) (by norm_num)
    (by norm_num)
  norm_num at h
  exact h

theorem ld_round_f : ld_round (4722366482869645213185 : ℚ)
    = LongDouble.finite 4722366482869645213184 := by
  have hm : round_half_even ((4722366482869645213185 : ℚ) / 2 ^ 8)
      = 18446744073709551614 :=
    round_half_even_down _ _ (by norm_num) (by norm_num)
  have h := ld_round_eval_nat 4722366482869645213185 8 18446744073709551614 (by norm_num)
    (by norm_num) (by norm_num) hm (by norm_num)
  norm_num at h
  exact h

theorem ld_round_g : ld_round (4722366482869645213313 : ℚ)
    = LongDouble.finite 4722366482869645213440 := by
  have hm : round_half_even ((4722366482869645213313 : ℚ) / 2 ^ 8)
      = 18446744073709551614 + 1 :=
    round_half_even_up _ _ (by norm_num) (by norm_num)
  have h := ld_round_eval_nat 4722366482869645213313 8 (18446744073709551614 + 1)
    (by norm_num) (by norm_num) (by norm_num) hm (by norm_num)
  norm_num at h
  exact h

theorem decode_value_ld_fffe :
    decode_value_ld "fffffffffffffffe".toList 16 = LongDouble.finite 18446744073709551614 := by
  rw [decode_value_ld_exact 16 (by norm_num) _ (by rw [decode_fffe]; norm_num), decode_fffe]

theorem decode_value_ld_81 : decode_value_ld ['8', '1'] 16 = LongDouble.finite 129 := by
  rw [decode_value_ld_exact 16 (by norm_num) _ (by rw [decode_81]; norm_num), decode_81]

theorem decode_value_ld_fffe81 :
    decode_value_ld ("fffffffffffffffe".toList ++ ['8', '1']) 16
      = LongDouble.finite 4722366482869645213184 := by
  have h8 : spec_digit '8' = some 8 := rfl
  have h1 : spec_digit '1' = some 1 := rfl
  have e : "fffffffffffffffe".toList ++ ['8', '1']
      = ("fffffffffffffffe".toList ++ ['8']) ++ ['1'] := by simp
  rw [e, decode_value_ld_snoc, decode_value_ld_snoc, decode_value_ld_fffe,
    decode_step_ld_of_some 16 _ '8' 8 h8, if_neg (by norm_num),
    ld_of_int_small 16 (by norm_num), ld_of_int_small _ (by norm_num), ld_mul_finite]
  norm_num
  rw [ld_round_c, ld_add_finite]
  norm_num
  rw [ld_round_d, decode_step_ld_of_some 16 _ '1' 1 h1, if_neg (by norm_num),
    ld_of_int_small 16 (by norm_num), ld_of_int_small _ (by norm_num), ld_mul_finite]
  norm_num
  rw [ld_round_e, ld_add_finite]
  norm_num
  rw [ld_round_f]

theorem ld_concat_rhs :
    ld_add (ld_mul (LongDouble.finite 18446744073709551614) (ld_of_int (16 ^ 2)))
        (LongDouble.finite 129)
      = LongDouble.finite 4722366482869645213440 := by
  rw [ld_of_int_small _ (by norm_num), ld_mul_finite]
  norm_num
  rw [ld_round_e, ld_add_finite]
  norm_num
  rw [ld_round_g]

theorem ld_round_zero : ld_round (0 : ℚ) = LongDouble.finite 0 := by
  simpa using ld_round_intCast 0 (by norm_num)
theorem ld_round_one : ld_round (1 : ℚ) = LongDouble.finite 1 := by
  simpa using ld_round_intCast 1 (by norm_num)
theorem ld_round_neg_one : ld_round (-1 : ℚ) = LongDouble.finite (-1) := by
  simpa using ld_round_intCast (-1) (by norm_num)
theorem ld_round_five : ld_round (5 : ℚ) = LongDouble.finite 5 := by
  simpa using ld_round_intCast 5 (by norm_num)

theorem ld_div_finite (a b : ℚ) (hb : b ≠ 0) :
    ld_div (LongDouble.finite a) (LongDouble.finite b) = ld_round (a / b) := by
  simp [ld_div, hb]

theorem range_two : List.range 2 = [0, 1] := by simp [List.range, List.range.loop]

theorem basis_step_ld_self (points : List PointLD) (j : Nat) (acc : LongDouble) :
    basis_step_ld points j acc j = Except.ok acc := by
  unfold basis_step_ld
  rw [if_pos rfl]
  rfl

theorem basis_step_inf_01 :
    basis_step_ld [⟨1, LongDouble.pos_inf⟩, ⟨0, LongDouble.finite 5⟩] 0 (LongDouble.finite 1) 1
      = Except.ok (LongDouble.finite 0) := by
  have w0 : wrap_long_long 0 = 0 := by decide
  have w1 : wrap_long_long 1 = 1 := by decide
  unfold basis_step_ld
  rw [if_neg (by decide)]
  simp only [point_ld_at, List.getD_cons_succ, List.getD_cons_zero]
  simp only [neg_zero, sub_zero, ld_of_int, w0, w1, Int.cast_zero, Int.cast_one,
    ld_round_zero, ld_round_one]
  rw [if_neg (by simp), ld_div_finite 0 1 one_ne_zero, zero_div, ld_round_zero,
    ld_mul_finite, mul_zero, ld_round_zero]
  rfl

theorem basis_step_inf_10 :
    basis_step_ld [⟨1, LongDouble.pos_inf⟩, ⟨0, LongDouble.finite 5⟩] 1 (LongDouble.finite 1) 0
      = Except.ok (LongDouble.finite 1) := by
  have wm1 : wrap_long_long (-1) = -1 := by decide
  unfold basis_step_ld
  rw [if_neg (by decide)]
  simp only [point_ld_at, List.getD_cons_succ, List.getD_cons_zero]
  simp only [zero_sub, ld_of_int, wm1, Int.cast_neg, Int.cast_one, ld_round_neg_one]
  rw [if_neg (by simp), ld_div_finite (-1) (-1) (by norm_num), div_self (by norm_num),
    ld_round_one, ld_mul_finite, mul_one, ld_round_one]
  rfl

theorem ld_mul_inf_zero : ld_mul LongDouble.pos_inf (LongDouble.finite 0) = LongDouble.nan := by
  simp [ld_mul]

theorem ld_add_nan_right (a : LongDouble) : ld_add a LongDouble.nan = LongDouble.nan := by
  cases a <;> rfl

theorem ld_add_nan_left (a : LongDouble) : ld_add LongDouble.nan a = LongDouble.nan := by
  cases a <;> rfl

theorem foldlM_pair {α β : Type} (f : β → α → Except String β) (a b c : β) (x y : α)
    (h1 : f a x = Except.ok b) (h2 : f b y = Except.ok c) :
    [x, y].foldlM f a = Except.ok c := by
  rw [List.foldlM_cons, h1]
  show [y].foldlM f b = Except.ok c
  rw [List.foldlM_cons, h2]
  rfl

theorem secret_step_ld_of_basis (points : List PointLD) (secret basis : LongDouble) (j : Nat)
    (h : (List.range points.length).foldlM (basis_step_ld points j) (LongDouble.finite 1)
      = Except.ok basis) :
    secret_step_ld points secret j
      = Except.ok (ld_add secret (ld_mul (point_ld_at points j).y basis)) := by
  unfold secret_step_ld
  rw [h]
  rfl

theorem length_inf_points :
    ([⟨1, LongDouble.pos_inf⟩, ⟨0, LongDouble.finite 5⟩] : List PointLD).length = 2 := rfl

theorem secret_step_inf_0 :
    secret_step_ld [⟨1, LongDouble.pos_inf⟩, ⟨0, LongDouble.finite 5⟩] (LongDouble.finite 0) 0
      = Except.ok LongDouble.nan := by
  have hb : (List.range ([⟨1, LongDouble.pos_inf⟩, ⟨0, LongDouble.finite 5⟩] :
        List PointLD).length).foldlM
      (basis_step_ld [⟨1, LongDouble.pos_inf⟩, ⟨0, LongDouble.finite 5⟩] 0) (LongDouble.finite 1)
      = Except.ok (LongDouble.finite 0) := by
    rw [length_inf_points, range_two]
    exact foldlM_pair _ _ _ _ 0 1 (basis_step_ld_self _ _ _) basis_step_inf_01
  rw [secret_step_ld_of_basis _ _ _ _ hb]
  have hy : (point_ld_at [⟨1, LongDouble.pos_inf⟩, ⟨0, LongDouble.finite 5⟩] 0).y
      = LongDouble.pos_inf := rfl
  rw [hy, ld_mul_inf_zero, ld_add_nan_right]

theorem secret_step_inf_1 :
    secret_step_ld [⟨1, LongDouble.pos_inf⟩, ⟨0, LongDouble.finite 5⟩] LongDouble.nan 1
      = Except.ok LongDouble.nan := by
  have hb : (List.range ([⟨1, LongDouble.pos_inf⟩, ⟨0, LongDouble.finite 5⟩] :
        List PointLD).length).foldlM
      (basis_step_ld [⟨1, LongDouble.pos_inf⟩, ⟨0, LongDouble.finite 5⟩] 1) (LongDouble.finite 1)
      = Except.ok (LongDouble.finite 1) := by
    rw [length_inf_points, range_two]
    exact foldlM_pair _ _ _ _ 0 1 basis_step_inf_10 (basis_step_ld_self _ _ _)
  rw [secret_step_ld_of_basis _ _ _ _ hb, ld_add_nan_left]

theorem find_secret_ld_inf :
    find_secret_ld [⟨1, LongDouble.pos_inf⟩, ⟨0, LongDouble.finite 5⟩]
      = Except.ok LongDouble.nan := by
  unfold find_secret_ld
  rw [length_inf_points, range_two]
  exact foldlM_pair _ _ _ _ 0 1 secret_step_inf_0 secret_step_inf_1
/-! ## Claims on the reconstructor with machine integers -/

/-- C2 refuted: the points `(2^62, 3)` and `(-2^62, 3)` have distinct abscissas
of type `long long`, yet `find_secret` returns `0` where the Lagrange value at
`x = 0` is `3`: the difference `2^62 - (-2^62) = 2^63` overflows at line 69. -/
theorem find_secret_ll_not_lagrange_at_zero :
    (([⟨2 ^ 62, 3⟩, ⟨-2 ^ 62, 3⟩] : List Point).map Point.x).Nodup ∧
    (∀ p ∈ ([⟨2 ^ 62, 3⟩, ⟨-2 ^ 62, 3⟩] : List Point), is_long_long p.x) ∧
    find_secret_ll [⟨2 ^ 62, 3⟩, ⟨-2 ^ 62, 3⟩] = Except.ok 0 ∧
    lagrange_at_zero [⟨2 ^ 62, 3⟩, ⟨-2 ^ 62, 3⟩] = 3 := by
  have hn : (([⟨2 ^ 62, 3⟩, ⟨-2 ^ 62, 3⟩] : List Point).map Point.x).Nodup := by decide
  refine ⟨hn, by decide, find_secret_ll_overflow, ?_⟩
  have h := find_secret_eq_lagrange _ hn
  rw [find_secret_no_overflow_value] at h
  exact (Except.ok.inj h).symm

/-- C2 amended: for every list of points with pairwise distinct x-coordinates
on which no `long long` operation overflows (every `-x_i` and every
`x_j - x_i` is a `long long` value), `find_secret` returns the Lagrange value at
`x = 0`, the sum over `j` of `y_j` times the product over `i ≠ j` of
`-x_i / (x_j - x_i)`, in exact rational arithmetic. -/
theorem find_secret_ll_eq_lagrange_at_zero (points : List Point)
    (hn : (points.map Point.x).Nodup) (hov : no_overflow (points.map Point.x)) :
    find_secret_ll points = Except.ok (lagrange_at_zero points) := by
  rw [find_secret_ll_eq_find_secret points hn hov]
  exact find_secret_eq_lagrange points hn

/-- Witness for C2 amended: three points with abscissas 1, 2, 3. -/
theorem find_secret_ll_eq_lagrange_at_zero_witness :
    ((([⟨1, 4⟩, ⟨2, 7⟩, ⟨3, 12⟩] : List Point).map Point.x).Nodup ∧
      no_overflow (([⟨1, 4⟩, ⟨2, 7⟩, ⟨3, 12⟩] : List Point).map Point.x)) ∧
    find_secret_ll [⟨1, 4⟩, ⟨2, 7⟩, ⟨3, 12⟩]
      = Except.ok (lagrange_at_zero [⟨1, 4⟩, ⟨2, 7⟩, ⟨3, 12⟩]) :=
  ⟨⟨by decide, by decide⟩,
    find_secret_ll_eq_lagrange_at_zero [⟨1, 4⟩, ⟨2, 7⟩, ⟨3, 12⟩] (by decide) (by decide)⟩

/-- C3 refuted: the constant polynomial `3` has degree `0 ≤ 2 - 1`; sampled at
the two distinct `long long` abscissas `2^62` and `-2^62`, `find_secret` returns
`0`, not `p(0) = 3`. -/
theorem find_secret_ll_not_polynomial_value :
    (1 ≤ ([2 ^ 62, -2 ^ 62] : List Int).length ∧
      (Polynomial.C 3 : Polynomial ℚ).natDegree ≤ ([2 ^ 62, -2 ^ 62] : List Int).length - 1 ∧
      ([2 ^ 62, -2 ^ 62] : List Int).Nodup ∧
      ∀ x ∈ ([2 ^ 62, -2 ^ 62] : List Int), is_long_long x) ∧
    find_secret_ll (([2 ^ 62, -2 ^ 62] : List Int).map
        (fun x => (⟨x, (Polynomial.C 3 : Polynomial ℚ).eval (x : ℚ)⟩ : Point)))
      = Except.ok 0 ∧
    (Polynomial.C 3 : Polynomial ℚ).eval 0 = 3 := by
  refine ⟨⟨by decide, by rw [Polynomial.natDegree_C]; decide, by decide, by decide⟩, ?_,
    Polynomial.eval_C⟩
  have e : ([2 ^ 62, -2 ^ 62] : List Int).map
      (fun x => (⟨x, (Polynomial.C 3 : Polynomial ℚ).eval (x : ℚ)⟩ : Point))
      = [⟨2 ^ 62, 3⟩, ⟨-2 ^ 62, 3⟩] := by
    simp [Polynomial.eval_C]
  rw [e]
  exact find_secret_ll_overflow

/-- C3 amended: for a polynomial `p` of degree at most `k - 1` (`k ≥ 1`) and `k`
pairwise distinct integer abscissas on which no `long long` operation
overflows, `find_secret` on the samples `(x_i, p(x_i))` returns `p(0)` in exact
arithmetic; hence two such `k`-element sets of samples of the same polynomial
give the same secret; and the points (1,4), (2,7), (3,12) of `x² + 3` give 3. -/
theorem find_secret_ll_recovers_polynomial_value :
    (∀ (p : Polynomial ℚ) (xs : List Int), 1 ≤ xs.length →
        p.natDegree ≤ xs.length - 1 → xs.Nodup → no_overflow xs →
        find_secret_ll (xs.map (fun x => (⟨x, p.eval (x : ℚ)⟩ : Point)))
          = Except.ok (p.eval 0)) ∧
    (∀ (p : Polynomial ℚ) (xs xs' : List Int), 1 ≤ xs.length → xs'.length = xs.length →
        p.natDegree ≤ xs.length - 1 → xs.Nodup → xs'.Nodup →
        no_overflow xs → no_overflow xs' →
        find_secret_ll (xs.map (fun x => (⟨x, p.eval (x : ℚ)⟩ : Point)))
          = find_secret_ll (xs'.map (fun x => (⟨x, p.eval (x : ℚ)⟩ : Point)))) ∧
    find_secret_ll [⟨1, 4⟩, ⟨2, 7⟩, ⟨3, 12⟩] = Except.ok 3 := by
  have main : ∀ (p : Polynomial ℚ) (xs : List Int), 1 ≤ xs.length →
      p.natDegree ≤ xs.length - 1 → xs.Nodup → no_overflow xs →
      find_secret_ll (xs.map (fun x => (⟨x, p.eval (x : ℚ)⟩ : Point)))
        = Except.ok (p.eval 0) := by
    intro p xs hk hdeg hn hov
    have hx : (xs.map (fun x => (⟨x, p.eval (x : ℚ)⟩ : Point))).map Point.x = xs := by
      rw [List.map_map]
      exact List.map_id xs
    rw [find_secret_ll_eq_find_secret _ (by rw [hx]; exact hn) (by rw [hx]; exact hov)]
    exact find_secret_of_polynomial p xs hk hdeg hn
  refine ⟨main, ?_, ?_⟩
  · intro p xs xs' hk hlen hdeg hn hn' hov hov'
    rw [main p xs hk hdeg hn hov, main p xs' (by omega) (by omega) hn' hov']
  · rw [find_secret_ll_eq_find_secret _ (by decide) (by decide)]
    exact find_secret_scenario

/-- Witness for C3 amended: the polynomial `X² + 3` sampled at 1, 2, 3, and the
same polynomial sampled at 4, 5, 6. -/
theorem find_secret_ll_recovers_polynomial_value_witness :
    (1 ≤ ([1, 2, 3] : List Int).length ∧
      ([4, 5, 6] : List Int).length = ([1, 2, 3] : List Int).length ∧
      (Polynomial.X ^ 2 + Polynomial.C 3 : Polynomial ℚ).natDegree
        ≤ ([1, 2, 3] : List Int).length - 1 ∧
      ([1, 2, 3] : List Int).Nodup ∧ ([4, 5, 6] : List Int).Nodup ∧
      no_overflow [1, 2, 3] ∧ no_overflow [4, 5, 6]) ∧
    find_secret_ll (([1, 2, 3] : List Int).map
        (fun x => (⟨x, (Polynomial.X ^ 2 + Polynomial.C 3 : Polynomial ℚ).eval (x : ℚ)⟩ : Point)))
      = Except.ok ((Polynomial.X ^ 2 + Polynomial.C 3 : Polynomial ℚ).eval 0) ∧
    find_secret_ll (([1, 2, 3] : List Int).map
        (fun x => (⟨x, (Polynomial.X ^ 2 + Polynomial.C 3 : Polynomial ℚ).eval (x : ℚ)⟩ : Point)))
      = find_secret_ll (([4, 5, 6] : List Int).map
        (fun x => (⟨x, (Polynomial.X ^ 2 + Polynomial.C 3 : Polynomial ℚ).eval (x : ℚ)⟩ : Point))) :=
  have hd : (Polynomial.X ^ 2 + Polynomial.C 3 : Polynomial ℚ).natDegree
      ≤ ([1, 2, 3] : List Int).length - 1 := by
    rw [Polynomial.natDegree_X_pow_add_C]; decide
  ⟨⟨by decide, rfl, hd, by decide, by decide, by decide, by decide⟩,
    find_secret_ll_recovers_polynomial_value.1 _ [1, 2, 3] (by decide) hd (by decide)
      (by decide),
    find_secret_ll_recovers_polynomial_value.2.1 _ [1, 2, 3] [4, 5, 6] (by decide) rfl hd
      (by decide) (by decide) (by decide) (by decide)⟩

/-- C14 refuted: in base 16 with `s = "fffffffffffffffe"` and `t = "81"` the
program decodes `s ++ t` to `2^72 - 512`, `s` to `2^64 - 2` and `t` to `129`,
with two accepted digits in `t`; but `(2^64 - 2) * 16^2 + 129 = 2^72 - 383`, and
evaluated in `long double` the right-hand side is `2^72 - 256`. -/
theorem decode_value_ld_concat_fails :
    decode_value_ld ("fffffffffffffffe".toList ++ ['8', '1']) 16
      = LongDouble.finite 4722366482869645213184 ∧
    decode_value_ld "fffffffffffffffe".toList 16 = LongDouble.finite 18446744073709551614 ∧
    decode_value_ld ['8', '1'] 16 = LongDouble.finite 129 ∧
    accepted_count 16 ['8', '1'] = 2 ∧
    (18446744073709551614 : ℚ) * 16 ^ 2 + 129 = 4722366482869645213313 ∧
    ld_add (ld_mul (LongDouble.finite 18446744073709551614) (ld_of_int (16 ^ 2)))
        (LongDouble.finite 129)
      = LongDouble.finite 4722366482869645213440 :=
  ⟨decode_value_ld_fffe81, decode_value_ld_fffe, decode_value_ld_81, by decide, by norm_num,
    ld_concat_rhs⟩

/-- C14 amended: for a base `b` (an `int`) and strings `s`, `t` such that the
exact value of `s ++ t` is below `2^64`, so that no result is rounded,
`decode_value (s ++ t) b = decode_value s b * b^m + decode_value t b` with `m`
the number of accepted digits of `t`; and prepending `'0'` characters never
changes the decoded value. -/
theorem decode_value_ld_concat (b : Int) (hb : b < 2 ^ 31) (s t : List Char) :
    (decode_value (s ++ t) b < 2 ^ 64 →
      ∃ vs vt : ℚ,
        decode_value_ld s b = LongDouble.finite vs ∧
        decode_value_ld t b = LongDouble.finite vt ∧
        decode_value_ld (s ++ t) b
          = LongDouble.finite (vs * (b : ℚ) ^ accepted_count b t + vt)) ∧
    ∀ n : Nat, decode_value_ld (List.replicate n '0' ++ t) b = decode_value_ld t b := by
  constructor
  · intro h
    have hs : decode_value s b < 2 ^ 64 ∧ decode_value t b < 2 ^ 64 := by
      by_cases hb1 : 1 ≤ b
      · obtain ⟨ns, hns, hns0, _⟩ := decode_value_int_bound b hb1 s
        obtain ⟨nt, hnt, hnt0, _⟩ := decode_value_int_bound b hb1 t
        rw [decode_value_append] at h
        have hs0 : (0 : ℚ) ≤ decode_value s b := by rw [hns]; exact_mod_cast hns0
        have ht0 : (0 : ℚ) ≤ decode_value t b := by rw [hnt]; exact_mod_cast hnt0
        have hb1' : (1 : ℚ) ≤ (b : ℚ) := by exact_mod_cast hb1
        have hpow : (1 : ℚ) ≤ (b : ℚ) ^ accepted_count b t := one_le_pow₀ hb1'
        have hmul : decode_value s b ≤ decode_value s b * (b : ℚ) ^ accepted_count b t :=
          le_mul_of_one_le_right hs0 hpow
        have hmul0 : (0 : ℚ) ≤ decode_value s b * (b : ℚ) ^ accepted_count b t :=
          mul_nonneg hs0 (by positivity)
        constructor <;> linarith
      · rw [decode_value_base_le_one b (by omega) s, decode_value_base_le_one b (by omega) t]
        constructor <;> norm_num
    refine ⟨_, _, decode_value_ld_exact b hb s hs.1, decode_value_ld_exact b hb t hs.2, ?_⟩
    rw [decode_value_ld_exact b hb (s ++ t) h, decode_value_append]
  · intro n
    have hz : decode_value_ld (List.replicate n '0') b = LongDouble.finite 0 := by
      rw [decode_value_ld_exact b hb _ (by rw [decode_value_zeros]; norm_num),
        decode_value_zeros]
    unfold decode_value_ld at hz ⊢
    rw [List.foldl_append, hz]

/-- Witness for C14 amended: base 16 with `s = "1f"` and `t = "g8"`. -/
theorem decode_value_ld_concat_witness :
    ((16 : Int) < 2 ^ 31 ∧ decode_value (['1', 'f'] ++ ['g', '8']) 16 < 2 ^ 64) ∧
    ∃ vs vt : ℚ,
      decode_value_ld ['1', 'f'] 16 = LongDouble.finite vs ∧
      decode_value_ld ['g', '8'] 16 = LongDouble.finite vt ∧
      decode_value_ld (['1', 'f'] ++ ['g', '8']) 16
        = LongDouble.finite (vs * ((16 : Int) : ℚ) ^ accepted_count 16 ['g', '8'] + vt) :=
  have h : decode_value (['1', 'f'] ++ ['g', '8']) 16 < 2 ^ 64 := by
    simp [decode_value, decode_step, char_digit]
    norm_num
  ⟨⟨by decide, h⟩, (decode_value_ld_concat 16 (by decide) ['1', 'f'] ['g', '8']).1 h⟩

/-- C15 refuted: seventeen characters `f` in base 16 are seventeen accepted
digits, yet the program decodes them to exactly `16^17`: the exact value
`16^17 - 1` needs 68 bits and is rounded up. -/
theorem decode_value_ld_range_fails :
    accepted_count 16 ("ffffffffffffffff".toList ++ ['f']) = 17 ∧
    decode_value_ld ("ffffffffffffffff".toList ++ ['f']) 16 = LongDouble.finite (16 ^ 17) :=
  ⟨by decide, decode_value_ld_seventeen_f⟩

/-- C15 amended: for a base `b ≥ 1` (an `int`) and a string with `m` accepted
digits such that `b^m ≤ 2^64`, the decoded value is an integer with
`0 ≤ decode_value s b < b^m`, so at most `b^m - 1`; for a base `b ≤ 1` the
decoded value is `0` for every string. -/
theorem decode_value_ld_range :
    (∀ (b : Int) (s : List Char), 1 ≤ b → b < 2 ^ 31 → b ^ accepted_count b s ≤ 2 ^ 64 →
      ∃ n : Int, decode_value_ld s b = LongDouble.finite (n : ℚ) ∧ 0 ≤ n ∧
        n < b ^ accepted_count b s ∧ n ≤ b ^ accepted_count b s - 1) ∧
    (∀ (b : Int) (s : List Char), b ≤ 1 → decode_value_ld s b = LongDouble.finite 0) := by
  constructor
  · intro b s hb1 hb hpow
    obtain ⟨n, hn, h0, hlt⟩ := decode_value_int_bound b hb1 s
    have h64 : decode_value s b < 2 ^ 64 := by
      rw [hn]
      have : n < 2 ^ 64 := by omega
      exact_mod_cast this
    exact ⟨n, by rw [decode_value_ld_exact b hb s h64, hn], h0, hlt, by omega⟩
  · intro b s hb
    rw [decode_value_ld_exact b (by omega) s
      (by rw [decode_value_base_le_one b hb s]; norm_num), decode_value_base_le_one b hb s]

/-- Witness for C15 amended: base 8 on the string "19" and base 1 on "0". -/
theorem decode_value_ld_range_witness :
    ((1 : Int) ≤ 8 ∧ (8 : Int) < 2 ^ 31 ∧ (8 : Int) ^ accepted_count 8 ['1', '9'] ≤ 2 ^ 64 ∧
      (1 : Int) ≤ 1) ∧
    (∃ n : Int, decode_value_ld ['1', '9'] 8 = LongDouble.finite (n : ℚ) ∧ 0 ≤ n ∧
        n < (8 : Int) ^ accepted_count 8 ['1', '9'] ∧
        n ≤ (8 : Int) ^ accepted_count 8 ['1', '9'] - 1) ∧
    decode_value_ld ['0'] 1 = LongDouble.finite 0 :=
  ⟨⟨by decide, by decide, by decide, by decide⟩,
    decode_value_ld_range.1 8 ['1', '9'] (by decide) (by decide) (by decide),
    decode_value_ld_range.2 1 ['0'] (by decide)⟩

end Hashira
